import Mathlib

/-! Study session manager: the session ledger.

A shallow embedding of `pkg/session/session.go`, and of `formatDuration` and
the subject map of `viewStatistics` in `cmd/sessmanager/main.go`.

* A `time.Time` value is an instant on the process clock, counted in
  nanoseconds (`Time`); the zero value `Time{}` is `0`.  `time.Now()` is an
  explicit argument `now` of the two operations that read the clock.  Both
  timestamps that `EndSession` subtracts come from `time.Now()` of the same
  process, so they carry a reading of Go's monotonic clock and `t.Sub(u)` is the
  difference of the two readings, kept inside the range of a duration as the
  library does (`Time.Sub`).  That clock never runs backwards, which is part of
  `Reachable`.
* A `time.Duration` is an int64 count of nanoseconds (`Duration`): `Time.Sub`
  and `Duration.Round` saturate at `minDuration` and `maxDuration` as the
  library does, and the sums `total += s.Duration` wrap around (`wrap64`).
  The identifiers are unbounded integers: the counter would need 2^63 sessions
  to leave the range of `int`.
* A Go `error` is `Option String`: `none` is `nil`, `some msg` an error with
  that message.
* A method with a pointer receiver that mutates the manager returns the
  manager after the call next to its Go results.
-/

namespace session

/-- An instant of the process clock, in nanoseconds. -/
abbrev Time := Int

/-- A span of time in nanoseconds, Go's `time.Duration`. -/
abbrev Duration := Int

/-- The largest `time.Duration`, 2^63 - 1 nanoseconds. -/
def maxDuration : Duration := 9223372036854775807

/-- The smallest `time.Duration`, -2^63 nanoseconds. -/
def minDuration : Duration := -9223372036854775808

/-- The value an int64 computation leaves: the integer brought into the range
from -2^63 to 2^63 - 1 by a multiple of 2^64. -/
def wrap64 (x : Int) : Int :=
  (x + 9223372036854775808) % 18446744073709551616 - 9223372036854775808

/-- The Go method `Time.Sub`: the duration `t - u`; when the difference is
outside the range of a duration, the largest or the smallest duration. -/
def Time.Sub (t u : Time) : Duration :=
  if t - u > maxDuration then maxDuration
  else if t - u < minDuration then minDuration
  else t - u

/-- Subject represents a study subject. -/
structure Subject where
  Name : String
  Description : String
deriving DecidableEq, Repr

/-- Session represents a study session. -/
structure Session where
  ID : Int
  Subject : Subject
  StartTime : Time
  EndTime : Time
  Duration : Duration
  Notes : String
  Completed : Bool
deriving DecidableEq, Repr

/-- The zero value `Session{}`. -/
def Session.zero : Session :=
  { ID := 0, Subject := { Name := "", Description := "" }, StartTime := 0, EndTime := 0,
    Duration := 0, Notes := "", Completed := false }

/-- Manager handles study sessions. -/
structure Manager where
  sessions : List Session
  nextID : Int
deriving DecidableEq, Repr

/-- NewManager creates a new session manager. -/
def NewManager : Manager :=
  { sessions := [], nextID := 1 }

/-- StartSession begins a new study session: the manager after the call, the
returned session and the returned error. -/
def StartSession (m : Manager) (subject : Subject) (now : Time) :
    Manager × Session × Option String :=
  let session : Session :=
    { ID := m.nextID, Subject := subject, StartTime := now, EndTime := 0,
      Duration := 0, Notes := "", Completed := false }
  ({ sessions := m.sessions ++ [session], nextID := m.nextID + 1 }, session, none)

/-- The four assignments to `m.sessions[i]` in the body of the loop of
`EndSession`, where `s` is the loop's copy of that element. -/
def EndSession.update (s : Session) (notes : String) (now : Time)
    (cur : Session) : Session :=
  let cur := { cur with EndTime := now }
  let cur := { cur with Duration := Time.Sub cur.EndTime s.StartTime }
  let cur := { cur with Notes := notes }
  { cur with Completed := true }

/-- Replace the element at index `i` of a slice by `f` of it. -/
def updateAt (f : Session → Session) : List Session → Nat → List Session
  | [], _ => []
  | s :: rest, 0 => f s :: rest
  | s :: rest, i + 1 => s :: updateAt f rest i

/-- The error of `EndSession`. -/
def EndSession.notFound (id : Int) : String :=
  "session with ID " ++ toString id ++ " not found or already completed"

/-- The loop `for i, s := range m.sessions` of `EndSession`, at index `i` with
`rest` the elements from `i` on. -/
def EndSession.loop (m : Manager) (id : Int) (notes : String) (now : Time) :
    Nat → List Session → Manager × Option String
  | _, [] => (m, some (EndSession.notFound id))
  | i, s :: rest =>
    if s.ID = id ∧ ¬ s.Completed = true then
      ({ m with sessions := updateAt (EndSession.update s notes now) m.sessions i }, none)
    else
      EndSession.loop m id notes now (i + 1) rest

/-- EndSession completes a study session: the manager after the call and the
returned error. -/
def EndSession (m : Manager) (id : Int) (notes : String) (now : Time) :
    Manager × Option String :=
  EndSession.loop m id notes now 0 m.sessions

/-- GetActiveSessions returns all active (not completed) sessions. -/
def GetActiveSessions (m : Manager) : List Session :=
  m.sessions.foldl (fun active s => if ¬ s.Completed = true then active ++ [s] else active) []

/-- GetCompletedSessions returns all completed sessions. -/
def GetCompletedSessions (m : Manager) : List Session :=
  m.sessions.foldl (fun completed s => if s.Completed = true then completed ++ [s] else completed) []

/-- GetAllSessions returns all sessions (a copy of the slice). -/
def GetAllSessions (m : Manager) : List Session :=
  (List.replicate m.sessions.length Session.zero).zipWith (fun _ s => s) m.sessions

/-- The error of `GetSessionByID`. -/
def GetSessionByID.notFound (id : Int) : String :=
  "session with ID " ++ toString id ++ " not found"

/-- The loop of `GetSessionByID` over the remaining elements. -/
def GetSessionByID.loop (id : Int) : List Session → Session × Option String
  | [] => (Session.zero, some (GetSessionByID.notFound id))
  | s :: rest => if s.ID = id then (s, none) else GetSessionByID.loop id rest

/-- GetSessionByID finds a session by its ID. -/
def GetSessionByID (m : Manager) (id : Int) : Session × Option String :=
  GetSessionByID.loop id m.sessions

/-- GetTotalStudyTime calculates total time spent studying; `total += s.Duration`
is an int64 addition. -/
def GetTotalStudyTime (m : Manager) : Duration :=
  m.sessions.foldl
    (fun total s => if s.Completed = true then wrap64 (total + s.Duration) else total) 0

/-- GetSubjectStudyTime calculates time spent on a specific subject;
`total += s.Duration` is an int64 addition. -/
def GetSubjectStudyTime (m : Manager) (subjectName : String) : Duration :=
  m.sessions.foldl
    (fun total s =>
      if s.Completed = true ∧ s.Subject.Name = subjectName then wrap64 (total + s.Duration)
      else total) 0

/-- One call of a mutating operation of the ledger, with the clock reading it
gets from `time.Now()`. -/
inductive Call where
  | start (subject : Subject) (now : Time)
  | finish (id : Int) (notes : String) (now : Time)
deriving DecidableEq, Repr

/-- The manager after one call. -/
def Call.apply (m : Manager) : Call → Manager
  | .start subject now => (StartSession m subject now).1
  | .finish id notes now => (EndSession m id notes now).1

/-- The manager after a sequence of calls, made in order. -/
def exec (m : Manager) (calls : List Call) : Manager :=
  calls.foldl Call.apply m

/-- The ids of the sessions returned by the `StartSession` calls of a sequence
of calls, in call order. -/
def returnedIds (m : Manager) : List Call → List Int
  | [] => []
  | .start subject now :: calls =>
    (StartSession m subject now).2.1.ID :: returnedIds (StartSession m subject now).1 calls
  | .finish id notes now :: calls => returnedIds (EndSession m id notes now).1 calls

/-- The ids passed to the `EndSession` calls of a sequence of calls that
returned no error. -/
def endedIds (m : Manager) : List Call → List Int
  | [] => []
  | .start subject now :: calls => endedIds (StartSession m subject now).1 calls
  | .finish id notes now :: calls =>
    if (EndSession m id notes now).2 = none then
      id :: endedIds (EndSession m id notes now).1 calls
    else endedIds (EndSession m id notes now).1 calls

/-- The number of `StartSession` calls in a sequence of calls. -/
def countStarts : List Call → Nat
  | [] => 0
  | .start _ _ :: calls => countStarts calls + 1
  | .finish _ _ _ :: calls => countStarts calls

/-- The states of the ledger reachable from `NewManager`, each with the last
reading `t` of the clock: the process clock never runs backwards, so every
call reads a time `now` that is not before the previous reading. -/
inductive Reachable : Manager → Time → Prop where
  | init (t : Time) : Reachable NewManager t
  | start {m : Manager} {t : Time} (subject : Subject) (now : Time) :
      Reachable m t → t ≤ now → Reachable (StartSession m subject now).1 now
  | finish {m : Manager} {t : Time} (id : Int) (notes : String) (now : Time) :
      Reachable m t → t ≤ now → Reachable (EndSession m id notes now).1 now

/-- The ids of the ledger are `1, 2, ...` in creation order and the counter is
the next one. -/
def Numbered (m : Manager) : Prop :=
  (∀ (i : Nat) (s : Session), m.sessions[i]? = some s → s.ID = (i : Int) + 1)
    ∧ m.nextID = (m.sessions.length : Int) + 1

/-- The record of a closed session does what the clock says: it did not start
after the last reading, and once completed its duration is the time from start
to end, which is not negative. -/
def Timed (m : Manager) (t : Time) : Prop :=
  ∀ s ∈ m.sessions, s.StartTime ≤ t ∧
    (s.Completed = true → s.Duration = Time.Sub s.EndTime s.StartTime ∧ 0 ≤ s.Duration)

/-- The ids of the completed sessions of the ledger. -/
def completedIds (m : Manager) : List Int :=
  (m.sessions.filter (fun s => s.Completed)).map (fun s => s.ID)

/-- A session that is not completed still has the zero values `StartSession`
gave to its end time, duration and notes. -/
def Unclosed (m : Manager) : Prop :=
  ∀ s ∈ m.sessions, s.Completed = false → s.EndTime = 0 ∧ s.Duration = 0 ∧ s.Notes = ""

/-- The scenario of the specification, first step: `StartSession` for the
subject "Math" on a fresh ledger, the clock reading `t1`. -/
def scenarioMath (d1 : String) (t1 : Time) : Manager × Session × Option String :=
  StartSession NewManager { Name := "Math", Description := d1 } t1

/-- The scenario, second step: `StartSession` for the subject "Physics". -/
def scenarioPhysics (d1 d2 : String) (t1 t2 : Time) : Manager × Session × Option String :=
  StartSession (scenarioMath d1 t1).1 { Name := "Physics", Description := d2 } t2

/-- The scenario, third step: `EndSession` on id 1. -/
def scenarioEnd (d1 d2 : String) (t1 t2 t3 : Time) : Manager × Option String :=
  EndSession (scenarioPhysics d1 d2 t1 t2).1 1 "finished chapter 3" t3

/-! Slices in memory, for the copy that `GetAllSessions` returns.  A Go slice
is a view of a backing array; two slices on the same array see each other's
writes.  The memory is the list of the backing arrays, an array's address its
position in that list. -/

/-- The backing arrays allocated so far. -/
abbrev Heap := List (List Session)

/-- A slice header: the address of the backing array and the length (the
slices of this program all start at index 0 of their array). -/
structure Slice where
  addr : Nat
  len : Nat
deriving DecidableEq, Repr

/-- The elements that a slice shows. -/
def Heap.read (h : Heap) (sl : Slice) : List Session :=
  (h[sl.addr]?.getD []).take sl.len

/-- The Go builtin `make([]Session, n)`: a new backing array of `n` zero
values and a slice on it. -/
def Heap.make (h : Heap) (n : Nat) : Heap × Slice :=
  (h ++ [List.replicate n Session.zero], { addr := h.length, len := n })

/-- The Go builtin `copy(dst, src)`: the first `min (len dst) (len src)`
elements of `dst` become those of `src`. -/
def Heap.copy (h : Heap) (dst src : Slice) : Heap :=
  let n := min dst.len src.len
  h.set dst.addr ((h.read src).take n ++ (h[dst.addr]?.getD []).drop n)

/-- The Go assignment `sl[i] = v`; an index out of range panics and nothing is
written. -/
def Heap.store (h : Heap) (sl : Slice) (i : Nat) (v : Session) : Heap :=
  if i < sl.len then h.set sl.addr ((h[sl.addr]?.getD []).set i v) else h

/-- The Go struct `Manager` in memory: the header of the slice `sessions` and
the counter. -/
structure ManagerMem where
  sessions : Slice
  nextID : Int
deriving DecidableEq, Repr

/-- The value of a manager in a memory: what its slice shows and its counter.
Every query of the ledger is a function of this value. -/
def ManagerMem.load (h : Heap) (m : ManagerMem) : Manager :=
  { sessions := h.read m.sessions, nextID := m.nextID }

/-- GetAllSessions in memory: `make`, then `copy`, then return the new
slice. -/
def GetAllSessionsMem (h : Heap) (m : ManagerMem) : Heap × Slice :=
  let made := h.make m.sessions.len
  (made.1.copy made.2 m.sessions, made.2)

/-- The caller's writes `sl[i] = v` to a slice, in order. -/
def overwrite (h : Heap) (sl : Slice) (writes : List (Nat × Session)) : Heap :=
  writes.foldl (fun h w => h.store sl w.1 w.2) h

/-! The duration formatting of `cmd/sessmanager/main.go`. -/

/-- The Go constant `time.Second`, in nanoseconds. -/
def Second : Duration := 1000000000

/-- The Go constant `time.Minute`. -/
def Minute : Duration := 60 * Second

/-- The Go constant `time.Hour`. -/
def Hour : Duration := 60 * Minute

/-- The helper `lessThanHalf` of Go's `Duration.Round`: whether
`uint64(x) + uint64(x) < uint64(y)`, in arithmetic modulo 2^64. -/
def lessThanHalf (x y : Duration) : Bool :=
  decide ((x % 18446744073709551616 + x % 18446744073709551616) % 18446744073709551616
    < y % 18446744073709551616)

/-- The Go method `Duration.Round`: `d` rounded to the nearest multiple of `m`,
halfway values away from zero; when the int64 sum overflows, which the library
sees by comparing the wrapped result with `d`, the largest or the smallest
duration.  Go's `%` is the truncated remainder `Int.tmod`. -/
def Duration.Round (d m : Duration) : Duration :=
  if m ≤ 0 then d
  else
    let r := Int.tmod d m
    if d < 0 then
      let r := -r
      if lessThanHalf r m then d + r
      else
        let d1 := wrap64 (d - m + r)
        if d1 < d then d1 else minDuration
    else
      if lessThanHalf r m then d - r
      else
        let d1 := wrap64 (d + m - r)
        if d1 > d then d1 else maxDuration

/-- The values `h`, `m`, `s` that `formatDuration` computes before it prints;
Go's `/` on integers is the truncated quotient `Int.tdiv`. -/
def formatDuration.parts (d : Duration) : Int × Int × Int :=
  let d := Duration.Round d Second
  let h := Int.tdiv d Hour
  let d := d - h * Hour
  let m := Int.tdiv d Minute
  let d := d - m * Minute
  let s := Int.tdiv d Second
  (h, m, s)

/-- The function `formatDuration` of `main.go`; `%d` prints the integer. -/
def formatDuration (d : Duration) : String :=
  let h := (formatDuration.parts d).1
  let m := (formatDuration.parts d).2.1
  let s := (formatDuration.parts d).2.2
  if h > 0 then toString h ++ "h " ++ toString m ++ "m " ++ toString s ++ "s"
  else if m > 0 then toString m ++ "m " ++ toString s ++ "s"
  else toString s ++ "s"

/-- The specification's reading of a duration: the number of whole seconds
nearest to `d` nanoseconds, a half second rounding away from zero (up, for a
duration that is not negative). -/
def specSeconds (d : Duration) : Int :=
  if d < 0 then -((-d + 500000000) / 1000000000) else (d + 500000000) / 1000000000

/-- The specification's rendering of a duration: the hours, minutes and
seconds components of the rounded value, led by the largest component that is
not zero, the seconds always shown. -/
def specFormat (d : Duration) : String :=
  let t := specSeconds d
  let h := Int.tdiv t 3600
  let m := Int.tdiv (Int.tmod t 3600) 60
  let s := Int.tmod t 60
  if h ≠ 0 then toString h ++ "h " ++ toString m ++ "m " ++ toString s ++ "s"
  else if m ≠ 0 then toString m ++ "m " ++ toString s ++ "s"
  else toString s ++ "s"

/-- The keys of the map `subjectMap` that `viewStatistics` fills from
`GetAllSessions`: every subject name once.  The order in which Go ranges over a
map is not fixed; the keys are listed here in the order of first insertion. -/
def subjectNames (m : Manager) : List String :=
  (GetAllSessions m).foldl
    (fun keys s => if s.Subject.Name ∈ keys then keys else keys ++ [s.Subject.Name]) []

/-- A subject for the worked examples. -/
def demoMath : Subject := { Name := "Math", Description := "algebra" }

/-- The ledger after one session was started at time 3. -/
def demoStarted : Manager := (StartSession NewManager demoMath 3).1

/-- The ledger after that session was ended at time 10. -/
def demoEnded : Manager := (EndSession demoStarted 1 "finished chapter 3" 10).1

/-- Ten years of 365 days, in nanoseconds. -/
def decadeNs : Time := 315360000000000000

/-- A second subject for the worked examples. -/
def demoPhysics : Subject := { Name := "Physics", Description := "mechanics" }

/-- The calls of a long run: `n` sessions are started at time 0, the first for
the subject `first` and the others for `demoMath`, and ten years later the
sessions `1` to `k` are ended. -/
def longRun (first : Subject) (n k : Nat) : List Call :=
  Call.start first 0 :: List.replicate (n - 1) (Call.start demoMath 0)
    ++ (List.range k).map (fun (i : Nat) => Call.finish ((i : Int) + 1) "" decadeNs)

/-- The clock reading of a call. -/
def Call.now : Call → Time
  | .start _ now => now
  | .finish _ _ now => now

/-- Whether the clock readings of a sequence of calls never go backwards,
starting from the reading `t`. -/
def clockOrdered : Time → List Call → Bool
  | _, [] => true
  | t, c :: calls => decide (t ≤ c.now) && clockOrdered c.now calls

/-- The last clock reading after a sequence of calls, `t` when there is no
call. -/
def lastReading : Time → List Call → Time
  | t, [] => t
  | _, c :: calls => lastReading c.now calls

/-- A memory with the backing array of `demoEnded` at address 0. -/
def demoHeap : Heap := [demoEnded.sessions]

/-- The manager `demoEnded` in `demoHeap`. -/
def demoMem : ManagerMem := { sessions := { addr := 0, len := 1 }, nextID := 2 }

/-! ## Arithmetic of int64 durations -/

theorem wrap64_of_range (x : Int) (h1 : -9223372036854775808 ≤ x)
    (h2 : x ≤ 9223372036854775807) : wrap64 x = x := by
  unfold wrap64
  omega

theorem wrap64_range (x : Int) :
    -9223372036854775808 ≤ wrap64 x ∧ wrap64 x ≤ 9223372036854775807 := by
  unfold wrap64
  omega

theorem wrap64_add_left (a b : Int) : wrap64 (wrap64 a + b) = wrap64 (a + b) := by
  unfold wrap64
  omega

theorem wrap64_add_right (a b : Int) : wrap64 (a + wrap64 b) = wrap64 (a + b) := by
  unfold wrap64
  omega

theorem wrap64_idem (a : Int) : wrap64 (wrap64 a) = wrap64 a := by
  unfold wrap64
  omega

theorem Time.Sub_range (t u : Int) :
    -9223372036854775808 ≤ Time.Sub t u ∧ Time.Sub t u ≤ 9223372036854775807 := by
  unfold Time.Sub maxDuration minDuration
  delta Duration Time
  split
  · omega
  · split <;> omega

theorem Time.Sub_of_range (t u : Int) (h1 : -9223372036854775808 ≤ t - u)
    (h2 : t - u ≤ 9223372036854775807) : Time.Sub t u = t - u := by
  unfold Time.Sub maxDuration minDuration
  delta Duration Time
  rw [if_neg (by omega), if_neg (by omega)]

theorem Time.Sub_nonneg_iff (t u : Int) : 0 ≤ Time.Sub t u ↔ u ≤ t := by
  unfold Time.Sub maxDuration minDuration
  delta Duration Time
  split
  · omega
  · split <;> omega

theorem wrap64_Sub (t u : Int) : wrap64 (Time.Sub t u) = Time.Sub t u :=
  wrap64_of_range _ (Time.Sub_range t u).1 (Time.Sub_range t u).2

/-! ## The loop of `EndSession` -/

@[simp] theorem update_ID (s cur : Session) (notes : String) (now : Time) :
    (EndSession.update s notes now cur).ID = cur.ID := rfl

@[simp] theorem update_Subject (s cur : Session) (notes : String) (now : Time) :
    (EndSession.update s notes now cur).Subject = cur.Subject := rfl

@[simp] theorem update_StartTime (s cur : Session) (notes : String) (now : Time) :
    (EndSession.update s notes now cur).StartTime = cur.StartTime := rfl

@[simp] theorem update_EndTime (s cur : Session) (notes : String) (now : Time) :
    (EndSession.update s notes now cur).EndTime = now := rfl

@[simp] theorem update_Duration (s cur : Session) (notes : String) (now : Time) :
    (EndSession.update s notes now cur).Duration = Time.Sub now s.StartTime := rfl

@[simp] theorem update_Notes (s cur : Session) (notes : String) (now : Time) :
    (EndSession.update s notes now cur).Notes = notes := rfl

@[simp] theorem update_Completed (s cur : Session) (notes : String) (now : Time) :
    (EndSession.update s notes now cur).Completed = true := rfl

theorem updateAt_eq_set (f : Session → Session) :
    ∀ (l : List Session) (i : Nat) (s : Session), l[i]? = some s →
      updateAt f l i = l.set i (f s)
  | [], i, s, h => by simp at h
  | a :: l, 0, s, h => by
    simp at h
    simp [updateAt, h]
  | a :: l, i + 1, s, h => by
    simp at h
    simp [updateAt, updateAt_eq_set f l i s h]

/-- What the loop of `EndSession` does from index `i` on: it fails and leaves
the manager alone when no remaining element is eligible, and otherwise updates
the first eligible one. -/
theorem loop_cases (m : Manager) (id : Int) (notes : String) (now : Time) :
    ∀ (rest : List Session) (i : Nat),
      ((∀ s ∈ rest, ¬ (s.ID = id ∧ s.Completed = false)) ∧
        EndSession.loop m id notes now i rest = (m, some (EndSession.notFound id))) ∨
      (∃ k s, rest[k]? = some s ∧ s.ID = id ∧ s.Completed = false ∧
        (∀ j s', j < k → rest[j]? = some s' → ¬ (s'.ID = id ∧ s'.Completed = false)) ∧
        EndSession.loop m id notes now i rest =
          ({ m with sessions := updateAt (EndSession.update s notes now) m.sessions (i + k) },
            none))
  | [], i => by
    left
    simp [EndSession.loop]
  | a :: rest, i => by
    by_cases h : a.ID = id ∧ ¬ a.Completed = true
    · right
      refine ⟨0, a, by simp, h.1, by simpa using h.2, ?_, ?_⟩
      · intro j s' hj
        omega
      · simp [EndSession.loop, h]
    · rcases loop_cases m id notes now rest (i + 1) with ⟨hno, hres⟩ | ⟨k, s, hk, hid, hc, hfirst, hres⟩
      · left
        refine ⟨?_, ?_⟩
        · intro s hs
          rcases List.mem_cons.1 hs with rfl | hs
          · simpa using h
          · exact hno s hs
        · rw [EndSession.loop, if_neg h, hres]
      · right
        refine ⟨k + 1, s, by simpa using hk, hid, hc, ?_, ?_⟩
        · intro j s' hj hs'
          cases j with
          | zero =>
            simp at hs'
            subst hs'
            simpa using h
          | succ j =>
            simp at hs'
            exact hfirst j s' (by omega) hs'
        · rw [EndSession.loop, if_neg h, hres]
          simp [Nat.add_assoc, Nat.add_comm 1 k]

/-- The two outcomes of `EndSession`. -/
theorem EndSession_cases (m : Manager) (id : Int) (notes : String) (now : Time) :
    ((∀ s ∈ m.sessions, ¬ (s.ID = id ∧ s.Completed = false)) ∧
      EndSession m id notes now = (m, some (EndSession.notFound id))) ∨
    (∃ k s, m.sessions[k]? = some s ∧ s.ID = id ∧ s.Completed = false ∧
      (∀ j s', j < k → m.sessions[j]? = some s' → ¬ (s'.ID = id ∧ s'.Completed = false)) ∧
      EndSession m id notes now =
        ({ m with sessions := m.sessions.set k (EndSession.update s notes now s) }, none)) := by
  rcases loop_cases m id notes now m.sessions 0 with h | ⟨k, s, hk, hid, hc, hfirst, hres⟩
  · left
    exact h
  · right
    refine ⟨k, s, hk, hid, hc, hfirst, ?_⟩
    rw [EndSession, hres, Nat.zero_add, updateAt_eq_set _ _ _ _ hk]

/-! ## Invariants of the reachable states -/

theorem Numbered_NewManager : Numbered NewManager := by
  constructor
  · intro i s h
    simp [NewManager] at h
  · simp [NewManager]

theorem Numbered_StartSession (m : Manager) (subject : Subject) (now : Time)
    (h : Numbered m) : Numbered (StartSession m subject now).1 := by
  obtain ⟨hid, hnext⟩ := h
  constructor
  · intro i s hs
    simp only [StartSession] at hs
    rcases Nat.lt_or_ge i m.sessions.length with hlt | hge
    · rw [List.getElem?_append_left hlt] at hs
      exact hid i s hs
    · rw [List.getElem?_append_right hge] at hs
      cases hk : i - m.sessions.length with
      | zero =>
        rw [hk] at hs
        simp at hs
        subst hs
        simp only [hnext]
        have : i = m.sessions.length := by omega
        rw [this]
      | succ k =>
        rw [hk] at hs
        simp at hs
  · simp [StartSession, hnext]

theorem Numbered_EndSession (m : Manager) (id : Int) (notes : String) (now : Time)
    (h : Numbered m) : Numbered (EndSession m id notes now).1 := by
  rcases EndSession_cases m id notes now with ⟨-, hres⟩ | ⟨k, s, hk, -, -, -, hres⟩
  · rw [hres]
    exact h
  · rw [hres]
    obtain ⟨hid, hnext⟩ := h
    constructor
    · intro i a ha
      simp only [List.getElem?_set] at ha
      split at ha
      · rename_i hki
        split at ha
        · simp at ha
          subst ha
          subst hki
          simpa using hid k s hk
        · simp at ha
      · exact hid i a ha
    · simpa using hnext

theorem Numbered_apply (m : Manager) (c : Call) (h : Numbered m) : Numbered (c.apply m) := by
  cases c with
  | start subject now => exact Numbered_StartSession m subject now h
  | finish id notes now => exact Numbered_EndSession m id notes now h

theorem Numbered_exec (calls : List Call) :
    ∀ (m : Manager), Numbered m → Numbered (exec m calls) := by
  induction calls with
  | nil =>
    intro m h
    exact h
  | cons c calls ih =>
    intro m h
    exact ih (c.apply m) (Numbered_apply m c h)

/-- In a numbered ledger two positions that hold the same id are the same
position. -/
theorem Numbered_unique {m : Manager} (h : Numbered m) {i j : Nat} {a b : Session}
    (ha : m.sessions[i]? = some a) (hb : m.sessions[j]? = some b) (hab : a.ID = b.ID) :
    i = j := by
  have h1 := h.1 i a ha
  have h2 := h.1 j b hb
  omega

/-- In a numbered ledger a session is determined by its id. -/
theorem Numbered_eq_of_ID {m : Manager} (h : Numbered m) {a b : Session}
    (ha : a ∈ m.sessions) (hb : b ∈ m.sessions) (hab : a.ID = b.ID) : a = b := by
  obtain ⟨i, hi⟩ := List.mem_iff_getElem?.1 ha
  obtain ⟨j, hj⟩ := List.mem_iff_getElem?.1 hb
  have hij := Numbered_unique h hi hj hab
  subst hij
  rw [hi] at hj
  exact Option.some.inj hj

theorem Timed_mono {m : Manager} {t u : Time} (h : Timed m t) (htu : t ≤ u) : Timed m u := by
  intro s hs
  exact ⟨le_trans (h s hs).1 htu, (h s hs).2⟩

theorem Timed_StartSession (m : Manager) (subject : Subject) (t now : Time)
    (h : Timed m t) (hnow : t ≤ now) : Timed (StartSession m subject now).1 now := by
  intro s hs
  simp only [StartSession, List.mem_append, List.mem_singleton] at hs
  rcases hs with hs | rfl
  · exact Timed_mono h hnow s hs
  · simp

theorem Timed_EndSession (m : Manager) (id : Int) (notes : String) (t now : Time)
    (h : Timed m t) (hnow : t ≤ now) : Timed (EndSession m id notes now).1 now := by
  rcases EndSession_cases m id notes now with ⟨-, hres⟩ | ⟨k, s, hk, -, -, -, hres⟩
  · rw [hres]
    exact Timed_mono h hnow
  · rw [hres]
    intro a ha
    rcases List.mem_or_eq_of_mem_set ha with ha | rfl
    · exact Timed_mono h hnow a ha
    · have hs : s ∈ m.sessions := List.mem_iff_getElem?.2 ⟨k, hk⟩
      have hst := (h s hs).1
      simp only [update_StartTime, update_Completed, update_Duration, update_EndTime,
        true_implies]
      exact ⟨le_trans hst hnow, trivial, (Time.Sub_nonneg_iff now s.StartTime).2 (le_trans hst hnow)⟩

theorem Reachable.numbered {m : Manager} {t : Time} (h : Reachable m t) : Numbered m := by
  induction h with
  | init t => exact Numbered_NewManager
  | start subject now _ _ ih => exact Numbered_StartSession _ subject now ih
  | finish id notes now _ _ ih => exact Numbered_EndSession _ id notes now ih

theorem Reachable.timed {m : Manager} {t : Time} (h : Reachable m t) : Timed m t := by
  induction h with
  | init t =>
    intro s hs
    simp [NewManager] at hs
  | start subject now _ hle ih => exact Timed_StartSession _ subject _ now ih hle
  | finish id notes now _ hle ih => exact Timed_EndSession _ id notes _ now ih hle

/-! ## The queries -/

theorem foldl_collect (p : Session → Prop) [DecidablePred p] :
    ∀ (l init : List Session),
      l.foldl (fun acc s => if p s then acc ++ [s] else acc) init
        = init ++ l.filter (fun s => decide (p s))
  | [], init => by simp
  | a :: l, init => by
    by_cases h : p a
    · simp [List.foldl_cons, h, foldl_collect p l]
    · simp [List.foldl_cons, h, foldl_collect p l]

/-- The int64 running total of a loop is the exact sum brought into int64. -/
theorem foldl_total (p : Session → Prop) [DecidablePred p] :
    ∀ (l : List Session) (init : Int),
      l.foldl (fun total s => if p s then wrap64 (total + s.Duration) else total) (wrap64 init)
        = wrap64 (init + ((l.filter (fun s => decide (p s))).map (fun s => s.Duration)).sum)
  | [], init => by simp
  | a :: l, init => by
    by_cases h : p a
    · simp only [List.foldl_cons, h, if_true, wrap64_add_left, foldl_total p l,
        List.filter_cons, decide_True, List.map_cons, List.sum_cons, add_assoc]
    · simp only [List.foldl_cons, h, if_false, foldl_total p l, List.filter_cons,
        decide_False, Bool.false_eq_true]

theorem GetActiveSessions_eq (m : Manager) :
    GetActiveSessions m = m.sessions.filter (fun s => !s.Completed) := by
  rw [GetActiveSessions, foldl_collect (fun s => ¬ s.Completed = true)]
  simp

theorem GetCompletedSessions_eq (m : Manager) :
    GetCompletedSessions m = m.sessions.filter (fun s => s.Completed) := by
  rw [GetCompletedSessions, foldl_collect (fun s => s.Completed = true)]
  simp

theorem GetTotalStudyTime_eq (m : Manager) :
    GetTotalStudyTime m
      = wrap64 ((m.sessions.filter (fun s => s.Completed)).map (fun s => s.Duration)).sum := by
  have h := foldl_total (fun s => s.Completed = true) m.sessions 0
  rw [show wrap64 0 = 0 by decide] at h
  rw [GetTotalStudyTime, h]
  simp

theorem GetSubjectStudyTime_eq (m : Manager) (name : String) :
    GetSubjectStudyTime m name
      = wrap64 ((m.sessions.filter (fun s => s.Completed && decide (s.Subject.Name = name))).map
          (fun s => s.Duration)).sum := by
  have h := foldl_total (fun s => s.Completed = true ∧ s.Subject.Name = name) m.sessions 0
  rw [show wrap64 0 = 0 by decide] at h
  rw [GetSubjectStudyTime, h]
  simp

theorem GetSessionByID_loop_of_mem (id : Int) :
    ∀ (l : List Session), (∃ s ∈ l, s.ID = id) →
      ∃ s ∈ l, s.ID = id ∧ GetSessionByID.loop id l = (s, none)
  | [], h => by simp at h
  | a :: l, h => by
    by_cases ha : a.ID = id
    · exact ⟨a, List.mem_cons_self a l, ha, by simp [GetSessionByID.loop, ha]⟩
    · obtain ⟨s, hs, hid⟩ := h
      rcases List.mem_cons.1 hs with rfl | hs
      · exact absurd hid ha
      · obtain ⟨b, hb, hbid, hres⟩ := GetSessionByID_loop_of_mem id l ⟨s, hs, hid⟩
        exact ⟨b, List.mem_cons_of_mem a hb, hbid, by simp [GetSessionByID.loop, ha, hres]⟩

theorem GetSessionByID_loop_of_not_mem (id : Int) :
    ∀ (l : List Session), (∀ s ∈ l, s.ID ≠ id) →
      GetSessionByID.loop id l = (Session.zero, some (GetSessionByID.notFound id))
  | [], _ => rfl
  | a :: l, h => by
    have ha : a.ID ≠ id := h a (List.mem_cons_self a l)
    have hl := GetSessionByID_loop_of_not_mem id l (fun s hs => h s (List.mem_cons_of_mem a hs))
    simp [GetSessionByID.loop, ha, hl]

/-! ## Sequences of calls -/

theorem returnedIds_eq (calls : List Call) :
    ∀ (m : Manager), returnedIds m calls
      = (List.range (countStarts calls)).map (fun (k : Nat) => m.nextID + (k : Int)) := by
  induction calls with
  | nil =>
    intro m
    simp [returnedIds, countStarts]
  | cons c calls ih =>
    intro m
    cases c with
    | start subject now =>
      rw [returnedIds, ih, countStarts, List.range_succ_eq_map]
      simp only [StartSession, List.map_cons, List.map_map, Function.comp_def, List.range_zero,
        List.map_nil, Nat.cast_zero, add_zero, Nat.cast_succ, List.cons.injEq, true_and]
      apply List.map_congr_left
      intro a _
      ring
    | finish id notes now =>
      rw [returnedIds, ih, countStarts]
      have h : (EndSession m id notes now).1.nextID = m.nextID := by
        rcases EndSession_cases m id notes now with ⟨-, hres⟩ | ⟨k, s, -, -, -, -, hres⟩
        · rw [hres]
        · rw [hres]
      rw [h]

theorem demoStarted_reachable : Reachable demoStarted 3 :=
  Reachable.start demoMath 3 (Reachable.init 0) (by decide)

theorem demoEnded_reachable : Reachable demoEnded 10 :=
  Reachable.finish 1 "finished chapter 3" 10 demoStarted_reachable (by decide)

/-- In a numbered ledger `EndSession` fails, and changes nothing, on an id
that is absent or belongs to a completed session. -/
theorem EndSession_fail {m : Manager} (hm : Numbered m) (id : Int) (notes : String)
    (now : Time)
    (h : (∀ s ∈ m.sessions, s.ID ≠ id) ∨ (∃ s ∈ m.sessions, s.ID = id ∧ s.Completed = true)) :
    EndSession m id notes now = (m, some (EndSession.notFound id)) := by
  rcases EndSession_cases m id notes now with ⟨-, hres⟩ | ⟨k, s, hk, hid, hc, -, -⟩
  · exact hres
  · exfalso
    have hs : s ∈ m.sessions := List.mem_iff_getElem?.2 ⟨k, hk⟩
    rcases h with h | ⟨a, ha, haid, hac⟩
    · exact h s hs hid
    · have := Numbered_eq_of_ID hm ha hs (haid.trans hid.symm)
      subst this
      rw [hc] at hac
      exact Bool.false_ne_true hac

/-- In a numbered ledger `GetSessionByID` returns the stored record. -/
theorem GetSessionByID_of_mem {m : Manager} (hm : Numbered m) {s : Session}
    (hs : s ∈ m.sessions) : GetSessionByID m s.ID = (s, none) := by
  obtain ⟨b, hb, hbid, hres⟩ := GetSessionByID_loop_of_mem s.ID m.sessions ⟨s, hs, rfl⟩
  have := Numbered_eq_of_ID hm hb hs hbid
  subst this
  exact hres

/-- A completed record is not touched by a later call. -/
theorem frozen_apply (m : Manager) (c : Call) (k : Nat) (s : Session)
    (hk : m.sessions[k]? = some s) (hc : s.Completed = true) :
    (c.apply m).sessions[k]? = some s := by
  cases c with
  | start subject now =>
    have hlt : k < m.sessions.length := by
      by_contra hge
      rw [List.getElem?_eq_none (by omega)] at hk
      exact Option.noConfusion hk
    simp only [Call.apply, StartSession]
    rw [List.getElem?_append_left hlt]
    exact hk
  | finish id notes now =>
    simp only [Call.apply]
    rcases EndSession_cases m id notes now with ⟨-, hres⟩ | ⟨j, a, hj, -, ha, -, hres⟩
    · rw [hres]
      exact hk
    · rw [hres]
      have hne : j ≠ k := by
        intro hjk
        subst hjk
        rw [hj] at hk
        have := Option.some.inj hk
        subst this
        rw [ha] at hc
        exact Bool.false_ne_true hc
      simp only [List.getElem?_set, if_neg hne]
      exact hk

theorem frozen_exec (calls : List Call) :
    ∀ (m : Manager) (k : Nat) (s : Session), m.sessions[k]? = some s → s.Completed = true →
      (exec m calls).sessions[k]? = some s := by
  induction calls with
  | nil =>
    intro m k s hk _
    exact hk
  | cons c calls ih =>
    intro m k s hk hc
    exact ih (c.apply m) k s (frozen_apply m c k s hk hc) hc

theorem mem_completedIds (m : Manager) (x : Int) :
    x ∈ completedIds m ↔ ∃ s ∈ m.sessions, s.ID = x ∧ s.Completed = true := by
  simp only [completedIds, List.mem_map, List.mem_filter]
  constructor
  · rintro ⟨s, ⟨hs, hc⟩, hx⟩
    exact ⟨s, hs, hx, hc⟩
  · rintro ⟨s, hs, hx, hc⟩
    exact ⟨s, ⟨hs, hc⟩, hx⟩

theorem completedIds_StartSession (m : Manager) (subject : Subject) (now : Time) :
    completedIds (StartSession m subject now).1 = completedIds m := by
  simp [completedIds, StartSession, List.filter_append]

/-- A successful `EndSession` adds its id to the completed ids, a failing one
adds nothing. -/
theorem mem_completedIds_EndSession (m : Manager) (id : Int) (notes : String) (now : Time)
    (x : Int) :
    x ∈ completedIds (EndSession m id notes now).1 ↔
      ((EndSession m id notes now).2 = none ∧ x = id) ∨ x ∈ completedIds m := by
  rcases EndSession_cases m id notes now with ⟨-, hres⟩ | ⟨k, s, hk, hid, hc, -, hres⟩
  · rw [hres]
    simp
  · have hklt : k < m.sessions.length := by
      by_contra hge
      rw [List.getElem?_eq_none (by omega)] at hk
      exact Option.noConfusion hk
    rw [hres]
    simp only [mem_completedIds, true_and]
    constructor
    · rintro ⟨a, ha, hax, hac⟩
      rcases List.mem_or_eq_of_mem_set ha with ha | rfl
      · exact Or.inr ⟨a, ha, hax, hac⟩
      · left
        rw [← hax]
        simpa using hid
    · rintro (rfl | ⟨a, ha, hax, hac⟩)
      · exact ⟨EndSession.update s notes now s,
          List.mem_iff_getElem?.2 ⟨k, by simp [List.getElem?_set, hklt]⟩, by simpa using hid, rfl⟩
      · obtain ⟨j, hj⟩ := List.mem_iff_getElem?.1 ha
        have hne : k ≠ j := by
          intro hkj
          subst hkj
          rw [hk] at hj
          have := Option.some.inj hj
          subst this
          rw [hc] at hac
          exact Bool.false_ne_true hac
        exact ⟨a, List.mem_iff_getElem?.2 ⟨j, by simp [List.getElem?_set, hne, hj]⟩, hax, hac⟩

/-- The completed sessions after a sequence of calls are the ones completed
before it and the ones an `EndSession` call of the sequence succeeded for. -/
theorem mem_completedIds_exec (calls : List Call) :
    ∀ (m : Manager) (x : Int),
      x ∈ completedIds (exec m calls) ↔ x ∈ endedIds m calls ∨ x ∈ completedIds m := by
  induction calls with
  | nil =>
    intro m x
    simp [exec, endedIds]
  | cons c calls ih =>
    intro m x
    cases c with
    | start subject now =>
      have := ih (StartSession m subject now).1 x
      rw [completedIds_StartSession] at this
      simpa [exec, Call.apply, endedIds] using this
    | finish id notes now =>
      have h1 := ih (EndSession m id notes now).1 x
      have h2 := mem_completedIds_EndSession m id notes now x
      simp only [exec, List.foldl_cons, Call.apply] at h1 ⊢
      rw [h1, h2, endedIds]
      split
      · rename_i hok
        simp only [hok, true_and, List.mem_cons]
        tauto
      · rename_i hok
        simp only [hok, false_and, false_or]

/-- Closing the record at position `k`, not completed before, adds the
duration of the closed record to the sum over the completed records. -/
theorem sum_completed_set (s' : Session) (hs' : s'.Completed = true) :
    ∀ (l : List Session) (k : Nat) (s : Session), l[k]? = some s → s.Completed = false →
      (((l.set k s').filter (fun a => a.Completed)).map (fun a => a.Duration)).sum
        = ((l.filter (fun a => a.Completed)).map (fun a => a.Duration)).sum + s'.Duration
  | [], k, s, h, _ => by simp at h
  | a :: l, 0, s, h, hc => by
    simp at h
    subst h
    simp [List.filter_cons, hs', hc, add_comm]
  | a :: l, k + 1, s, h, hc => by
    simp at h
    have ih := sum_completed_set s' hs' l k s h hc
    by_cases ha : a.Completed = true
    · simp [List.filter_cons, ha, ih, add_assoc]
    · simp [List.filter_cons, ha, ih]

theorem GetTotalStudyTime_StartSession (m : Manager) (subject : Subject) (now : Time) :
    GetTotalStudyTime (StartSession m subject now).1 = GetTotalStudyTime m := by
  simp [GetTotalStudyTime_eq, StartSession, List.filter_append]

/-- A sequence of calls whose clock readings never go backwards leads from a
reachable ledger to a reachable ledger. -/
theorem Reachable_exec (calls : List Call) :
    ∀ (m : Manager) (t : Time), Reachable m t → clockOrdered t calls = true →
      Reachable (exec m calls) (lastReading t calls) := by
  induction calls with
  | nil =>
    intro m t hm _
    exact hm
  | cons c calls ih =>
    intro m t hm hc
    simp only [clockOrdered, Bool.and_eq_true, decide_eq_true_eq] at hc
    cases c with
    | start subject now =>
      exact ih _ now (Reachable.start subject now hm hc.1) hc.2
    | finish id notes now =>
      exact ih _ now (Reachable.finish id notes now hm hc.1) hc.2

/-- In a ledger whose completed durations are not negative the exact sum of
the completed durations is not negative. -/
theorem sum_completed_nonneg :
    ∀ (l : List Session), (∀ s ∈ l, s.Completed = true → 0 ≤ s.Duration) →
      0 ≤ ((l.filter (fun s => s.Completed)).map (fun s => s.Duration)).sum := by
  intro l
  induction l with
  | nil =>
    intro _
    simp
  | cons a l ih =>
    intro h
    have hl := ih (fun s hs => h s (List.mem_cons_of_mem a hs))
    by_cases hc : a.Completed = true
    · have ha : (0 : Int) ≤ a.Duration := h a (List.mem_cons_self a l) hc
      simp only [List.filter_cons, hc, if_true, List.map_cons, List.sum_cons]
      exact add_nonneg ha hl
    · simp only [List.filter_cons, hc, Bool.false_eq_true, if_false]
      exact hl

/-- Bringing the summands into int64 first does not change the int64 sum. -/
theorem wrap64_sum_map (f : String → Int) :
    ∀ (l : List String),
      wrap64 ((l.map (fun n => wrap64 (f n))).sum) = wrap64 ((l.map f).sum) := by
  intro l
  induction l with
  | nil => rfl
  | cons n l ih =>
    simp only [List.map_cons, List.sum_cons]
    rw [wrap64_add_left, ← wrap64_add_right, ih, wrap64_add_right]

/-! ## The claims -/

/-- C1: on a fresh ledger the sessions returned by the `StartSession` calls of
any sequence of calls, with `EndSession` calls interleaved at will and whatever
they return, have the ids `1, 2, ..., n` in call order, `n` the number of
`StartSession` calls; in particular so do `n` calls of `StartSession` alone. -/
theorem C1_start_ids_sequential (calls : List Call) (starts : List (Subject × Time)) :
    returnedIds NewManager calls
        = (List.range' 1 (countStarts calls)).map (fun (k : Nat) => (k : Int))
      ∧ returnedIds NewManager (starts.map (fun p => Call.start p.1 p.2))
        = (List.range' 1 starts.length).map (fun (k : Nat) => (k : Int)) := by
  have key : ∀ cs : List Call, returnedIds NewManager cs
      = (List.range' 1 (countStarts cs)).map (fun (k : Nat) => (k : Int)) := by
    intro cs
    rw [returnedIds_eq, List.range'_eq_map_range]
    simp [NewManager, Function.comp_def]
  refine ⟨key calls, ?_⟩
  have hcount : countStarts (starts.map (fun p => Call.start p.1 p.2)) = starts.length := by
    induction starts with
    | nil => rfl
    | cons p starts ih => simp [countStarts, ih]
  rw [key, hcount]

/-- C2: in a reachable ledger, when no session has the id, or the session with
the id is completed, `EndSession` returns its not-found error and the manager
after the call, sessions and counter, is the manager before it. -/
theorem C2_end_session_not_found_unchanged (m : Manager) (t : Time) (hm : Reachable m t)
    (id : Int) (notes : String) (now : Time)
    (h : (∀ s ∈ m.sessions, s.ID ≠ id) ∨ (∃ s ∈ m.sessions, s.ID = id ∧ s.Completed = true)) :
    (EndSession m id notes now).2 = some (EndSession.notFound id)
      ∧ (EndSession m id notes now).1 = m := by
  rw [EndSession_fail hm.numbered id notes now h]
  exact ⟨rfl, rfl⟩

/-- Witness of C2: ending the completed session 1 of `demoEnded` again. -/
theorem C2_end_session_not_found_unchanged_witness :
    Reachable demoEnded 10
      ∧ (∃ s ∈ demoEnded.sessions, s.ID = 1 ∧ s.Completed = true)
      ∧ (EndSession demoEnded 1 "again" 20).2 = some (EndSession.notFound 1)
      ∧ (EndSession demoEnded 1 "again" 20).1 = demoEnded :=
  ⟨demoEnded_reachable, by decide,
    C2_end_session_not_found_unchanged demoEnded 10 demoEnded_reachable 1 "again" 20
      (Or.inr (by decide))⟩

/-- C3: in a reachable ledger, with the clock read at `now`, a successful
`EndSession` leaves the session with the id completed, with the notes given,
ended at `now`, with the duration from start to end, which is not negative; the
session is among the completed sessions and no active session has its id. -/
theorem C3_end_session_success (m : Manager) (t : Time) (hm : Reachable m t)
    (id : Int) (notes : String) (now : Time) (hnow : t ≤ now)
    (hok : (EndSession m id notes now).2 = none) :
    ∃ s, GetSessionByID (EndSession m id notes now).1 id = (s, none)
      ∧ s ∈ (EndSession m id notes now).1.sessions
      ∧ (∀ a ∈ (EndSession m id notes now).1.sessions, a.ID = id → a = s)
      ∧ s.Completed = true ∧ s.Notes = notes ∧ s.EndTime = now
      ∧ s.Duration = Time.Sub s.EndTime s.StartTime ∧ 0 ≤ s.Duration
      ∧ s ∈ GetCompletedSessions (EndSession m id notes now).1
      ∧ (∀ a ∈ GetActiveSessions (EndSession m id notes now).1, a.ID ≠ id) := by
  have hnum := Numbered_EndSession m id notes now hm.numbered
  have htimed := Timed_EndSession m id notes t now hm.timed hnow
  rcases EndSession_cases m id notes now with ⟨-, hres⟩ | ⟨k, s, hk, hid, -, -, hres⟩
  · rw [hres] at hok
    exact Option.noConfusion hok
  · have hklt : k < m.sessions.length := by
      by_contra hge
      rw [List.getElem?_eq_none (by omega)] at hk
      exact Option.noConfusion hk
    have hmem : EndSession.update s notes now s ∈ (EndSession m id notes now).1.sessions := by
      rw [hres]
      exact List.mem_iff_getElem?.2 ⟨k, by simp [List.getElem?_set, hklt]⟩
    have huniq : ∀ a ∈ (EndSession m id notes now).1.sessions, a.ID = id →
        a = EndSession.update s notes now s := by
      intro a ha haid
      exact Numbered_eq_of_ID hnum ha hmem (by simpa [hid] using haid)
    refine ⟨EndSession.update s notes now s, ?_, hmem, huniq, rfl, rfl, rfl,
      (htimed _ hmem).2 rfl |>.1, (htimed _ hmem).2 rfl |>.2, ?_, ?_⟩
    · have := GetSessionByID_of_mem hnum hmem
      simpa [hid] using this
    · rw [GetCompletedSessions_eq]
      exact List.mem_filter.2 ⟨hmem, rfl⟩
    · intro a ha haid
      rw [GetActiveSessions_eq] at ha
      obtain ⟨ha, hac⟩ := List.mem_filter.1 ha
      have := huniq a ha haid
      subst this
      simp at hac

/-- Witness of C3: ending session 1 of `demoStarted` at time 10. -/
theorem C3_end_session_success_witness :
    Reachable demoStarted 3 ∧ (3 : Time) ≤ 10
      ∧ (EndSession demoStarted 1 "finished chapter 3" 10).2 = none
      ∧ ∃ s, GetSessionByID (EndSession demoStarted 1 "finished chapter 3" 10).1 1 = (s, none)
        ∧ s ∈ (EndSession demoStarted 1 "finished chapter 3" 10).1.sessions
        ∧ (∀ a ∈ (EndSession demoStarted 1 "finished chapter 3" 10).1.sessions, a.ID = 1 → a = s)
        ∧ s.Completed = true ∧ s.Notes = "finished chapter 3" ∧ s.EndTime = 10
        ∧ s.Duration = Time.Sub s.EndTime s.StartTime ∧ 0 ≤ s.Duration
        ∧ s ∈ GetCompletedSessions (EndSession demoStarted 1 "finished chapter 3" 10).1
        ∧ (∀ a ∈ GetActiveSessions (EndSession demoStarted 1 "finished chapter 3" 10).1,
            a.ID ≠ 1) :=
  ⟨demoStarted_reachable, by decide, by decide,
    C3_end_session_success demoStarted 3 demoStarted_reachable 1 "finished chapter 3" 10
      (by decide) (by decide)⟩

/-- C4: in a reachable ledger, after a successful `EndSession` on an id and
then any sequence of further calls, the session with the id is the record the
successful call left, completed and with its end time, duration and notes, and
one more `EndSession` on the id fails and changes nothing. -/
theorem C4_closed_once_for_all (m : Manager) (t : Time) (hm : Reachable m t)
    (id : Int) (notes : String) (now : Time)
    (hok : (EndSession m id notes now).2 = none)
    (calls : List Call) (notes' : String) (now' : Time) :
    ∃ s, GetSessionByID (EndSession m id notes now).1 id = (s, none)
      ∧ s.Completed = true ∧ s.EndTime = now ∧ s.Notes = notes
      ∧ s.Duration = Time.Sub now s.StartTime
      ∧ GetSessionByID (exec (EndSession m id notes now).1 calls) id = (s, none)
      ∧ (∀ a ∈ (exec (EndSession m id notes now).1 calls).sessions, a.ID = id → a = s)
      ∧ (EndSession (exec (EndSession m id notes now).1 calls) id notes' now').2
          = some (EndSession.notFound id)
      ∧ (EndSession (exec (EndSession m id notes now).1 calls) id notes' now').1
          = exec (EndSession m id notes now).1 calls := by
  have hnum := Numbered_EndSession m id notes now hm.numbered
  have hnum2 := Numbered_exec calls _ hnum
  rcases EndSession_cases m id notes now with ⟨-, hres⟩ | ⟨k, s, hk, hid, -, -, hres⟩
  · rw [hres] at hok
    exact Option.noConfusion hok
  · have hklt : k < m.sessions.length := by
      by_contra hge
      rw [List.getElem?_eq_none (by omega)] at hk
      exact Option.noConfusion hk
    have hget : (EndSession m id notes now).1.sessions[k]?
        = some (EndSession.update s notes now s) := by
      rw [hres]
      simp [List.getElem?_set, hklt]
    have hget2 := frozen_exec calls _ k _ hget rfl
    have hmem := List.mem_iff_getElem?.2 ⟨k, hget⟩
    have hmem2 := List.mem_iff_getElem?.2 ⟨k, hget2⟩
    have hsid : (EndSession.update s notes now s).ID = id := by simpa using hid
    have hfail := EndSession_fail hnum2 id notes' now'
      (Or.inr ⟨_, hmem2, hsid, rfl⟩)
    refine ⟨EndSession.update s notes now s, ?_, rfl, rfl, rfl, rfl, ?_, ?_, ?_, ?_⟩
    · have h := GetSessionByID_of_mem hnum hmem
      rwa [hsid] at h
    · have h := GetSessionByID_of_mem hnum2 hmem2
      rwa [hsid] at h
    · intro a ha haid
      exact Numbered_eq_of_ID hnum2 ha hmem2 (haid.trans hsid.symm)
    · rw [hfail]
    · rw [hfail]

/-- Witness of C4: session 1 of `demoStarted` is ended at time 10, a second
session is started and session 1 is ended once more, and then again. -/
theorem C4_closed_once_for_all_witness :
    Reachable demoStarted 3
      ∧ (EndSession demoStarted 1 "finished chapter 3" 10).2 = none
      ∧ ∃ s, GetSessionByID (EndSession demoStarted 1 "finished chapter 3" 10).1 1 = (s, none)
        ∧ s.Completed = true ∧ s.EndTime = 10 ∧ s.Notes = "finished chapter 3"
        ∧ s.Duration = Time.Sub 10 s.StartTime
        ∧ GetSessionByID (exec (EndSession demoStarted 1 "finished chapter 3" 10).1
            [Call.start demoMath 12, Call.finish 1 "more" 15]) 1 = (s, none)
        ∧ (∀ a ∈ (exec (EndSession demoStarted 1 "finished chapter 3" 10).1
            [Call.start demoMath 12, Call.finish 1 "more" 15]).sessions, a.ID = 1 → a = s)
        ∧ (EndSession (exec (EndSession demoStarted 1 "finished chapter 3" 10).1
            [Call.start demoMath 12, Call.finish 1 "more" 15]) 1 "again" 20).2
            = some (EndSession.notFound 1)
        ∧ (EndSession (exec (EndSession demoStarted 1 "finished chapter 3" 10).1
            [Call.start demoMath 12, Call.finish 1 "more" 15]) 1 "again" 20).1
            = exec (EndSession demoStarted 1 "finished chapter 3" 10).1
              [Call.start demoMath 12, Call.finish 1 "more" 15] :=
  ⟨demoStarted_reachable, by decide,
    C4_closed_once_for_all demoStarted 3 demoStarted_reachable 1 "finished chapter 3" 10
      (by decide) [Call.start demoMath 12, Call.finish 1 "more" 15] "again" 20⟩

/-- C5, as stated, fails: 30 sessions are started together and ended ten years
later, one by one; each has the duration of ten years, the exact sum of the
durations is above the largest int64 and the int64 total of
`GetTotalStudyTime` has wrapped around to a negative value. -/
theorem C5_total_study_time_counterexample :
    GetTotalStudyTime (exec NewManager (longRun demoMath 30 30)) = -8985944073709551616
      ∧ (((exec NewManager (longRun demoMath 30 30)).sessions.filter
          (fun s => s.Completed)).map (fun s => s.Duration)).sum = 9460800000000000000 := by
  decide!

/-- C5, amended: after any sequence of calls on a fresh ledger, the completed
sessions are the ones an `EndSession` call succeeded for, and
`GetTotalStudyTime` is the sum of their durations in int64 arithmetic: the
exact sum brought into int64 by a multiple of 2^64, which is the exact sum when
that fits in int64; it is zero when no session is completed. -/
theorem C5_total_study_time_int64 (calls : List Call) :
    (∀ s ∈ (exec NewManager calls).sessions,
        s.Completed = true ↔ s.ID ∈ endedIds NewManager calls)
      ∧ GetTotalStudyTime (exec NewManager calls)
        = wrap64 (((exec NewManager calls).sessions.filter
            (fun s => decide (s.ID ∈ endedIds NewManager calls))).map (fun s => s.Duration)).sum
      ∧ GetTotalStudyTime (exec NewManager calls)
        = wrap64 (((exec NewManager calls).sessions.filter
            (fun s => s.Completed)).map (fun s => s.Duration)).sum
      ∧ (-9223372036854775808 ≤ (((exec NewManager calls).sessions.filter
            (fun s => s.Completed)).map (fun s => s.Duration)).sum →
          (((exec NewManager calls).sessions.filter
            (fun s => s.Completed)).map (fun s => s.Duration)).sum ≤ 9223372036854775807 →
          GetTotalStudyTime (exec NewManager calls)
            = (((exec NewManager calls).sessions.filter
                (fun s => decide (s.ID ∈ endedIds NewManager calls))).map
                  (fun s => s.Duration)).sum)
      ∧ ((∀ s ∈ (exec NewManager calls).sessions, s.Completed = false) →
          GetTotalStudyTime (exec NewManager calls) = 0) := by
  have hnum := Numbered_exec calls NewManager Numbered_NewManager
  have hiff : ∀ s ∈ (exec NewManager calls).sessions,
      s.Completed = true ↔ s.ID ∈ endedIds NewManager calls := by
    intro s hs
    have h := mem_completedIds_exec calls NewManager s.ID
    have h0 : s.ID ∉ completedIds NewManager := by simp [completedIds, NewManager]
    rw [mem_completedIds] at h
    constructor
    · intro hc
      rcases h.1 ⟨s, hs, rfl, hc⟩ with h | h
      · exact h
      · exact absurd h h0
    · intro hid
      obtain ⟨a, ha, haid, hac⟩ := h.2 (Or.inl hid)
      rw [← Numbered_eq_of_ID hnum ha hs haid]
      exact hac
  have hfilter : (exec NewManager calls).sessions.filter
      (fun s => decide (s.ID ∈ endedIds NewManager calls))
      = (exec NewManager calls).sessions.filter (fun s => s.Completed) := by
    apply List.filter_congr
    intro s hs
    by_cases hc : s.Completed = true
    · simp [hc, (hiff s hs).1 hc]
    · have : s.ID ∉ endedIds NewManager calls := fun h => hc ((hiff s hs).2 h)
      simp [hc, this]
  refine ⟨hiff, ?_, GetTotalStudyTime_eq _, ?_, ?_⟩
  · rw [hfilter]
    exact GetTotalStudyTime_eq _
  · intro hlo hhi
    rw [hfilter, GetTotalStudyTime_eq]
    exact wrap64_of_range _ hlo hhi
  · intro hnone
    rw [GetTotalStudyTime_eq, List.filter_eq_nil_iff.2]
    · rfl
    · intro s hs
      simp [hnone s hs]

/-- Witness of C5, amended: one session, started at 3 and ended at 10. -/
theorem C5_total_study_time_int64_witness :
    GetTotalStudyTime (exec NewManager [Call.start demoMath 3, Call.finish 1 "done" 10])
        = (((exec NewManager [Call.start demoMath 3, Call.finish 1 "done" 10]).sessions.filter
            (fun s => decide (s.ID
              ∈ endedIds NewManager [Call.start demoMath 3, Call.finish 1 "done" 10]))).map
            (fun s => s.Duration)).sum
      ∧ GetTotalStudyTime (exec NewManager [Call.start demoMath 3, Call.finish 1 "done" 10]) = 7 :=
  ⟨(C5_total_study_time_int64 [Call.start demoMath 3, Call.finish 1 "done" 10]).2.2.2.1
      (by decide) (by decide),
    by decide⟩

/-- C6, as stated, fails: 30 sessions are started together and 29 of them
ended ten years later, which is a reachable ledger with the total of 290 years;
ending the last one at the same reading succeeds and the int64 total wraps
around to a negative value. -/
theorem C6_total_never_decreases_counterexample :
    Reachable (exec NewManager (longRun demoMath 30 29)) decadeNs
      ∧ (EndSession (exec NewManager (longRun demoMath 30 29)) 30 "" decadeNs).2 = none
      ∧ GetTotalStudyTime (exec NewManager (longRun demoMath 30 29)) = 9145440000000000000
      ∧ GetTotalStudyTime
          (EndSession (exec NewManager (longRun demoMath 30 29)) 30 "" decadeNs).1
          = -8985944073709551616 := by
  have hlast : lastReading 0 (longRun demoMath 30 29) = decadeNs := by decide
  have hclock : clockOrdered 0 (longRun demoMath 30 29) = true := by decide
  have hreach := Reachable_exec (longRun demoMath 30 29) NewManager 0 (Reachable.init 0) hclock
  rw [hlast] at hreach
  have hok : (EndSession (exec NewManager (longRun demoMath 30 29)) 30 "" decadeNs).2 = none := by
    decide!
  have hbefore : GetTotalStudyTime (exec NewManager (longRun demoMath 30 29))
      = 9145440000000000000 := by
    decide!
  have hafter : GetTotalStudyTime
      (EndSession (exec NewManager (longRun demoMath 30 29)) 30 "" decadeNs).1
      = -8985944073709551616 := by
    decide!
  exact ⟨hreach, hok, hbefore, hafter⟩

/-- C6, amended: in a reachable ledger, with the clock read at `now`,
`StartSession` and a failing `EndSession` leave `GetTotalStudyTime` as it is,
and a successful `EndSession` does not decrease it as long as the exact sum of
the completed durations after the call fits in int64. -/
theorem C6_total_never_decreases_int64 (m : Manager) (t : Time) (hm : Reachable m t)
    (now : Time) (hnow : t ≤ now) :
    (∀ subject, GetTotalStudyTime (StartSession m subject now).1 = GetTotalStudyTime m)
      ∧ (∀ id notes, (EndSession m id notes now).2 ≠ none →
          GetTotalStudyTime (EndSession m id notes now).1 = GetTotalStudyTime m)
      ∧ (∀ id notes,
          (((EndSession m id notes now).1.sessions.filter
            (fun s => s.Completed)).map (fun s => s.Duration)).sum ≤ 9223372036854775807 →
          GetTotalStudyTime m ≤ GetTotalStudyTime (EndSession m id notes now).1) := by
  refine ⟨?_, ?_, ?_⟩
  · intro subject
    exact GetTotalStudyTime_StartSession m subject now
  · intro id notes herr
    rcases EndSession_cases m id notes now with ⟨-, hres⟩ | ⟨k, s, -, -, -, -, hres⟩
    · rw [hres]
    · rw [hres] at herr
      exact absurd rfl herr
  · intro id notes hfit
    have hbefore := sum_completed_nonneg m.sessions (fun s hs hc => ((hm.timed s hs).2 hc).2)
    rcases EndSession_cases m id notes now with ⟨-, hres⟩ | ⟨k, s, hk, -, hsc, -, hres⟩
    · rw [hres]
    · rw [hres] at hfit ⊢
      rw [GetTotalStudyTime_eq, GetTotalStudyTime_eq]
      simp only at hfit ⊢
      rw [sum_completed_set _ rfl m.sessions k s hk hsc] at hfit ⊢
      have hs : s ∈ m.sessions := List.mem_iff_getElem?.2 ⟨k, hk⟩
      have hst : s.StartTime ≤ now := le_trans (hm.timed s hs).1 hnow
      have hd : (0 : Int) ≤ (EndSession.update s notes now s).Duration :=
        (Time.Sub_nonneg_iff now s.StartTime).2 hst
      generalize ((m.sessions.filter (fun a => a.Completed)).map (fun a => a.Duration)).sum
        = total at hbefore hfit ⊢
      generalize (EndSession.update s notes now s).Duration = d at hd hfit ⊢
      delta Duration at *
      rw [wrap64_of_range total (by omega) (by omega),
        wrap64_of_range (total + d) (by omega) (by omega)]
      omega

/-- Witness of C6, amended: ending session 1 of `demoStarted` at time 10 takes
the total from 0 to 7. -/
theorem C6_total_never_decreases_int64_witness :
    Reachable demoStarted 3 ∧ (3 : Time) ≤ 10
      ∧ (((EndSession demoStarted 1 "finished chapter 3" 10).1.sessions.filter
          (fun s => s.Completed)).map (fun s => s.Duration)).sum ≤ 9223372036854775807
      ∧ GetTotalStudyTime demoStarted
          ≤ GetTotalStudyTime (EndSession demoStarted 1 "finished chapter 3" 10).1 :=
  ⟨demoStarted_reachable, by decide, by decide,
    (C6_total_never_decreases_int64 demoStarted 3 demoStarted_reachable 10 (by decide)).2.2 1
      "finished chapter 3" (by decide)⟩

/-- C7, as stated, fails: after 30 sessions for "Math", started together and
ended ten years later, the exact sum of their durations is above the largest int64
and the int64 total of `GetSubjectStudyTime` has wrapped around to a negative
value. -/
theorem C7_subject_study_time_counterexample :
    GetSubjectStudyTime (exec NewManager (longRun demoMath 30 30)) "Math"
        = -8985944073709551616
      ∧ (((exec NewManager (longRun demoMath 30 30)).sessions.filter
          (fun s => s.Completed && decide (s.Subject.Name = "Math"))).map
            (fun s => s.Duration)).sum = 9460800000000000000 := by
  decide!

/-- C7, amended: in every ledger `GetSubjectStudyTime` of a name is the sum,
in int64 arithmetic, of the durations of the completed sessions whose subject
name is that very string: the exact sum brought into int64 by a multiple of
2^64, which is the exact sum when that fits in int64; it is zero when no
completed session has the name; a name that differs in case or by a blank is
another name. -/
theorem C7_subject_study_time_int64 (m : Manager) (name : String) :
    GetSubjectStudyTime m name
        = wrap64 ((m.sessions.filter
            (fun s => s.Completed && decide (s.Subject.Name = name))).map
              (fun s => s.Duration)).sum
      ∧ (-9223372036854775808 ≤ ((m.sessions.filter
            (fun s => s.Completed && decide (s.Subject.Name = name))).map
              (fun s => s.Duration)).sum →
          ((m.sessions.filter
            (fun s => s.Completed && decide (s.Subject.Name = name))).map
              (fun s => s.Duration)).sum ≤ 9223372036854775807 →
          GetSubjectStudyTime m name
            = ((m.sessions.filter
                (fun s => s.Completed && decide (s.Subject.Name = name))).map
                  (fun s => s.Duration)).sum)
      ∧ ((∀ s ∈ m.sessions, s.Completed = true → s.Subject.Name ≠ name) →
          GetSubjectStudyTime m name = 0)
      ∧ GetSubjectStudyTime demoEnded "Math" = 7
      ∧ GetSubjectStudyTime demoEnded "math" = 0
      ∧ GetSubjectStudyTime demoEnded " Math" = 0
      ∧ GetSubjectStudyTime demoEnded "Math " = 0 := by
  refine ⟨GetSubjectStudyTime_eq m name, ?_, ?_, by decide, by decide, by decide, by decide⟩
  · intro hlo hhi
    rw [GetSubjectStudyTime_eq]
    exact wrap64_of_range _ hlo hhi
  · intro h
    rw [GetSubjectStudyTime_eq, List.filter_eq_nil_iff.2]
    · rfl
    · intro s hs
      by_cases hc : s.Completed = true
      · simp [hc, h s hs hc]
      · simp [hc]

/-- Witness of C7, amended: no completed session of `demoEnded` is named
"Physics", and the time of "Math" is the exact sum 7. -/
theorem C7_subject_study_time_int64_witness :
    (∀ s ∈ demoEnded.sessions, s.Completed = true → s.Subject.Name ≠ "Physics")
      ∧ GetSubjectStudyTime demoEnded "Physics" = 0
      ∧ GetSubjectStudyTime demoEnded "Math"
          = ((demoEnded.sessions.filter
              (fun s => s.Completed && decide (s.Subject.Name = "Math"))).map
                (fun s => s.Duration)).sum :=
  ⟨by decide, (C7_subject_study_time_int64 demoEnded "Physics").2.2.1 (by decide),
    (C7_subject_study_time_int64 demoEnded "Math").2.1 (by decide) (by decide)⟩

/-- C8: in every ledger `GetActiveSessions` is the subsequence of the sessions
that are not completed and `GetCompletedSessions` the subsequence of the
completed ones, in the order of the ledger; a session of the ledger is in
exactly one of the two, their lengths add up to the length of
`GetAllSessions`, and `GetActiveSessions` is empty when no session is active. -/
theorem C8_active_completed_partition (m : Manager) :
    GetActiveSessions m = m.sessions.filter (fun s => !s.Completed)
      ∧ GetCompletedSessions m = m.sessions.filter (fun s => s.Completed)
      ∧ (∀ s ∈ m.sessions,
          (s ∈ GetActiveSessions m ∧ s ∉ GetCompletedSessions m)
            ∨ (s ∉ GetActiveSessions m ∧ s ∈ GetCompletedSessions m))
      ∧ (GetActiveSessions m).length + (GetCompletedSessions m).length
          = (GetAllSessions m).length
      ∧ ((∀ s ∈ m.sessions, s.Completed = true) → GetActiveSessions m = []) := by
  rw [GetActiveSessions_eq, GetCompletedSessions_eq]
  refine ⟨rfl, rfl, ?_, ?_, ?_⟩
  · intro s hs
    by_cases hc : s.Completed = true
    · right
      simp [List.mem_filter, hs, hc]
    · left
      simp [List.mem_filter, hs, hc]
  · have hall : (GetAllSessions m).length = m.sessions.length := by
      simp [GetAllSessions]
    rw [hall]
    generalize m.sessions = l
    induction l with
    | nil => rfl
    | cons a l ih =>
      by_cases hc : a.Completed = true
      · simp [List.filter_cons, hc]
        omega
      · simp [List.filter_cons, hc]
        omega
  · intro h
    rw [List.filter_eq_nil_iff]
    intro s hs
    simp [h s hs]

/-- Witness of C8: `demoEnded` has no active session. -/
theorem C8_active_completed_partition_witness :
    (∀ s ∈ demoEnded.sessions, s.Completed = true) ∧ GetActiveSessions demoEnded = [] :=
  ⟨by decide, (C8_active_completed_partition demoEnded).2.2.2.2 (by decide)⟩

/-- C9: in a reachable ledger `GetSessionByID` fails exactly when no session
has the id, then with its not-found error, and otherwise returns without error
the stored record of the one session with the id, completed or not. -/
theorem C9_get_session_by_id (m : Manager) (t : Time) (hm : Reachable m t) (id : Int) :
    ((GetSessionByID m id).2 ≠ none ↔ ∀ s ∈ m.sessions, s.ID ≠ id)
      ∧ ((∀ s ∈ m.sessions, s.ID ≠ id) →
          (GetSessionByID m id).2 = some (GetSessionByID.notFound id))
      ∧ (∀ s ∈ m.sessions, s.ID = id →
          GetSessionByID m id = (s, none) ∧ ∀ a ∈ m.sessions, a.ID = id → a = s) := by
  have hfound : ∀ s ∈ m.sessions, s.ID = id → GetSessionByID m id = (s, none) := by
    intro s hs hid
    rw [← hid]
    exact GetSessionByID_of_mem hm.numbered hs
  refine ⟨?_, ?_, ?_⟩
  · constructor
    · intro herr s hs hid
      rw [hfound s hs hid] at herr
      exact herr rfl
    · intro hno
      rw [GetSessionByID, GetSessionByID_loop_of_not_mem id m.sessions hno]
      exact Option.noConfusion
  · intro hno
    rw [GetSessionByID, GetSessionByID_loop_of_not_mem id m.sessions hno]
  · intro s hs hid
    refine ⟨hfound s hs hid, ?_⟩
    intro a ha haid
    exact Numbered_eq_of_ID hm.numbered ha hs (haid.trans hid.symm)

/-- Witness of C9: `demoEnded` has a session 1 and no session 2. -/
theorem C9_get_session_by_id_witness :
    Reachable demoEnded 10
      ∧ (∀ s ∈ demoEnded.sessions, s.ID ≠ 2)
      ∧ (GetSessionByID demoEnded 2).2 = some (GetSessionByID.notFound 2) :=
  ⟨demoEnded_reachable, by decide,
    (C9_get_session_by_id demoEnded 10 demoEnded_reachable 2).2.1 (by decide)⟩

/-- C10: `StartSession` keeps the sessions of the ledger and adds the returned
one at the end; a successful `EndSession` keeps the counter and the number and
order of the sessions, changes the record at one position only, a record with
the id that was not completed, and keeps the id, subject and start time of
that record while it sets its end time, duration, notes and completed flag. -/
theorem C10_append_only (m : Manager) (subject : Subject) (id : Int) (notes : String)
    (now : Time) :
    (StartSession m subject now).1.sessions = m.sessions ++ [(StartSession m subject now).2.1]
      ∧ ((EndSession m id notes now).2 = none →
        (EndSession m id notes now).1.nextID = m.nextID
          ∧ (EndSession m id notes now).1.sessions.length = m.sessions.length
          ∧ (EndSession m id notes now).1.sessions.map (fun s => s.ID)
              = m.sessions.map (fun s => s.ID)
          ∧ ∃ (k : Nat) (s s' : Session), m.sessions[k]? = some s
              ∧ (EndSession m id notes now).1.sessions[k]? = some s'
              ∧ (∀ j, j ≠ k → (EndSession m id notes now).1.sessions[j]? = m.sessions[j]?)
              ∧ (∀ a ∈ m.sessions, a.ID ≠ id → a ∈ (EndSession m id notes now).1.sessions)
              ∧ s.ID = id ∧ s.Completed = false
              ∧ s'.ID = s.ID ∧ s'.Subject = s.Subject ∧ s'.StartTime = s.StartTime
              ∧ s'.EndTime = now ∧ s'.Duration = Time.Sub now s.StartTime
              ∧ s'.Notes = notes ∧ s'.Completed = true) := by
  refine ⟨rfl, ?_⟩
  intro hok
  rcases EndSession_cases m id notes now with ⟨-, hres⟩ | ⟨k, s, hk, hid, hsc, -, hres⟩
  · rw [hres] at hok
    exact Option.noConfusion hok
  · have hklt : k < m.sessions.length := by
      by_contra hge
      rw [List.getElem?_eq_none (by omega)] at hk
      exact Option.noConfusion hk
    have hother : ∀ j, j ≠ k →
        (m.sessions.set k (EndSession.update s notes now s))[j]? = m.sessions[j]? := by
      intro j hj
      simp [List.getElem?_set, Ne.symm hj]
    rw [hres]
    refine ⟨rfl, by simp, ?_, k, s, EndSession.update s notes now s, hk,
      by simp [List.getElem?_set, hklt], hother, ?_, hid, hsc, rfl, rfl, rfl, rfl, rfl, rfl, rfl⟩
    · apply List.ext_getElem?
      intro j
      by_cases hj : j = k
      · subst hj
        have hget : m.sessions[j] = s := by
          have h := hk
          rw [List.getElem?_eq_getElem hklt] at h
          exact Option.some.inj h
        simp [List.getElem?_set, hklt, hget]
      · simp only [List.getElem?_map, hother j hj]
    · intro a ha haid
      obtain ⟨j, hj⟩ := List.mem_iff_getElem?.1 ha
      have hjk : j ≠ k := by
        intro h
        subst h
        rw [hk] at hj
        have := Option.some.inj hj
        subst this
        exact haid hid
      exact List.mem_iff_getElem?.2 ⟨j, by rw [hother j hjk]; exact hj⟩

/-- Witness of C10: ending session 1 of `demoStarted` at time 10. -/
theorem C10_append_only_witness :
    (EndSession demoStarted 1 "finished chapter 3" 10).2 = none
      ∧ (EndSession demoStarted 1 "finished chapter 3" 10).1.nextID = demoStarted.nextID
      ∧ (EndSession demoStarted 1 "finished chapter 3" 10).1.sessions.length
          = demoStarted.sessions.length :=
  ⟨by decide,
    ((C10_append_only demoStarted demoMath 1 "finished chapter 3" 10).2 (by decide)).1,
    ((C10_append_only demoStarted demoMath 1 "finished chapter 3" 10).2 (by decide)).2.1⟩

/-! ## Further invariants and the behaviour of the two operations -/

theorem Unclosed_StartSession (m : Manager) (subject : Subject) (now : Time)
    (h : Unclosed m) : Unclosed (StartSession m subject now).1 := by
  intro s hs hc
  simp only [StartSession, List.mem_append, List.mem_singleton] at hs
  rcases hs with hs | rfl
  · exact h s hs hc
  · exact ⟨rfl, rfl, rfl⟩

theorem Unclosed_EndSession (m : Manager) (id : Int) (notes : String) (now : Time)
    (h : Unclosed m) : Unclosed (EndSession m id notes now).1 := by
  rcases EndSession_cases m id notes now with ⟨-, hres⟩ | ⟨k, s, -, -, -, -, hres⟩
  · rw [hres]
    exact h
  · rw [hres]
    intro a ha hc
    rcases List.mem_or_eq_of_mem_set ha with ha | rfl
    · exact h a ha hc
    · simp at hc

theorem Reachable.unclosed {m : Manager} {t : Time} (h : Reachable m t) : Unclosed m := by
  induction h with
  | init t =>
    intro s hs
    simp [NewManager] at hs
  | start subject now _ _ ih => exact Unclosed_StartSession _ subject now ih
  | finish id notes now _ _ ih => exact Unclosed_EndSession _ id notes now ih

/-- C12: in a reachable ledger every completed session has the duration from
its start time to its end time, the duration is not negative and the end time
is not before the start time. -/
theorem C12_completed_duration (m : Manager) (t : Time) (hm : Reachable m t)
    (s : Session) (hs : s ∈ m.sessions) (hc : s.Completed = true) :
    s.Duration = Time.Sub s.EndTime s.StartTime ∧ 0 ≤ s.Duration
      ∧ s.StartTime ≤ s.EndTime := by
  obtain ⟨hd, hpos⟩ := (hm.timed s hs).2 hc
  refine ⟨hd, hpos, ?_⟩
  rw [hd] at hpos
  exact (Time.Sub_nonneg_iff s.EndTime s.StartTime).1 hpos

/-- Witness of C12: the one session of `demoEnded`, started at 3 and ended at
10, has duration 7. -/
theorem C12_completed_duration_witness :
    Reachable demoEnded 10
      ∧ (GetSessionByID demoEnded 1).1 ∈ demoEnded.sessions
      ∧ (GetSessionByID demoEnded 1).1.Completed = true
      ∧ (GetSessionByID demoEnded 1).1.Duration
          = Time.Sub (GetSessionByID demoEnded 1).1.EndTime (GetSessionByID demoEnded 1).1.StartTime
      ∧ 0 ≤ (GetSessionByID demoEnded 1).1.Duration
      ∧ (GetSessionByID demoEnded 1).1.StartTime ≤ (GetSessionByID demoEnded 1).1.EndTime :=
  ⟨demoEnded_reachable, by decide, by decide,
    C12_completed_duration demoEnded 10 demoEnded_reachable (GetSessionByID demoEnded 1).1
      (by decide) (by decide)⟩

/-- C13: in a reachable ledger every session that is not completed has
duration zero, empty notes and the zero end time, and so has the session that
`StartSession` returns. -/
theorem C13_active_fields_unset (m : Manager) (t : Time) (hm : Reachable m t)
    (subject : Subject) (now : Time) :
    (∀ s ∈ m.sessions, s.Completed = false →
        s.Duration = 0 ∧ s.Notes = "" ∧ s.EndTime = 0)
      ∧ (StartSession m subject now).2.1.Completed = false
      ∧ (StartSession m subject now).2.1.Duration = 0
      ∧ (StartSession m subject now).2.1.Notes = ""
      ∧ (StartSession m subject now).2.1.EndTime = 0 := by
  refine ⟨?_, rfl, rfl, rfl, rfl⟩
  intro s hs hc
  obtain ⟨h1, h2, h3⟩ := hm.unclosed s hs hc
  exact ⟨h2, h3, h1⟩

/-- Witness of C13: the one session of `demoStarted` is active. -/
theorem C13_active_fields_unset_witness :
    Reachable demoStarted 3
      ∧ (∀ s ∈ demoStarted.sessions, s.Completed = false →
          s.Duration = 0 ∧ s.Notes = "" ∧ s.EndTime = 0) :=
  ⟨demoStarted_reachable,
    (C13_active_fields_unset demoStarted 3 demoStarted_reachable demoMath 5).1⟩

/-- C14: the scenario of the specification, for all clock readings and
subject descriptions: "Math" gets id 1 and is not completed, "Physics" gets id
2, the active sessions are 1, 2; ending 1 succeeds and leaves 2 active and 1
completed; ending 1 again fails with the not-found error; the total and the
time of "Math" are the duration of session 1 and the time of "Physics" is 0. -/
theorem C14_scenario (d1 d2 notes : String) (t1 t2 t3 t4 : Time) :
    (scenarioMath d1 t1).2.1.ID = 1
      ∧ (scenarioMath d1 t1).2.1.Completed = false
      ∧ (scenarioPhysics d1 d2 t1 t2).2.1.ID = 2
      ∧ (GetActiveSessions (scenarioPhysics d1 d2 t1 t2).1).map (fun s => s.ID) = [1, 2]
      ∧ (scenarioEnd d1 d2 t1 t2 t3).2 = none
      ∧ (GetActiveSessions (scenarioEnd d1 d2 t1 t2 t3).1).map (fun s => s.ID) = [2]
      ∧ (GetCompletedSessions (scenarioEnd d1 d2 t1 t2 t3).1).map (fun s => s.ID) = [1]
      ∧ (EndSession (scenarioEnd d1 d2 t1 t2 t3).1 1 notes t4).2
          = some (EndSession.notFound 1)
      ∧ (EndSession (scenarioEnd d1 d2 t1 t2 t3).1 1 notes t4).1
          = (scenarioEnd d1 d2 t1 t2 t3).1
      ∧ (GetSessionByID (scenarioEnd d1 d2 t1 t2 t3).1 1).2 = none
      ∧ (GetSessionByID (scenarioEnd d1 d2 t1 t2 t3).1 1).1.Duration = Time.Sub t3 t1
      ∧ GetTotalStudyTime (scenarioEnd d1 d2 t1 t2 t3).1
          = (GetSessionByID (scenarioEnd d1 d2 t1 t2 t3).1 1).1.Duration
      ∧ GetSubjectStudyTime (scenarioEnd d1 d2 t1 t2 t3).1 "Math"
          = (GetSessionByID (scenarioEnd d1 d2 t1 t2 t3).1 1).1.Duration
      ∧ GetSubjectStudyTime (scenarioEnd d1 d2 t1 t2 t3).1 "Physics" = 0 := by
  have hne : ("Math" : String) ≠ "Physics" := by decide
  simp [scenarioMath, scenarioPhysics, scenarioEnd, StartSession, NewManager, EndSession,
    EndSession.loop, EndSession.update, updateAt, GetActiveSessions, GetCompletedSessions,
    GetSessionByID, GetSessionByID.loop, GetTotalStudyTime, GetSubjectStudyTime, wrap64_Sub,
    hne]

/-- C16: in every ledger `EndSession` succeeds exactly when some session has
the id and is not completed, which is when the id is the id of an element of
`GetActiveSessions`; when it succeeds, the record it updates is the first one in
the order of the ledger that has the id and is not completed. -/
theorem C16_end_session_success_iff (m : Manager) (id : Int) (notes : String) (now : Time) :
    ((EndSession m id notes now).2 = none ↔
        ∃ s ∈ m.sessions, s.ID = id ∧ s.Completed = false)
      ∧ ((EndSession m id notes now).2 = none ↔ ∃ a ∈ GetActiveSessions m, a.ID = id)
      ∧ ((EndSession m id notes now).2 = none →
          ∃ (k : Nat) (s : Session), m.sessions[k]? = some s ∧ s.ID = id ∧ s.Completed = false
            ∧ (∀ (j : Nat) (a : Session), j < k → m.sessions[j]? = some a →
                ¬ (a.ID = id ∧ a.Completed = false))
            ∧ (EndSession m id notes now).1.sessions
                = m.sessions.set k (EndSession.update s notes now s)) := by
  have hiff : (EndSession m id notes now).2 = none ↔
      ∃ s ∈ m.sessions, s.ID = id ∧ s.Completed = false := by
    rcases EndSession_cases m id notes now with ⟨hno, hres⟩ | ⟨k, s, hk, hid, hc, -, hres⟩
    · rw [hres]
      constructor
      · intro h
        exact Option.noConfusion h
      · rintro ⟨s, hs, h⟩
        exact absurd h (hno s hs)
    · rw [hres]
      exact ⟨fun _ => ⟨s, List.mem_iff_getElem?.2 ⟨k, hk⟩, hid, hc⟩, fun _ => rfl⟩
  refine ⟨hiff, ?_, ?_⟩
  · rw [hiff, GetActiveSessions_eq]
    constructor
    · rintro ⟨s, hs, hid, hc⟩
      exact ⟨s, List.mem_filter.2 ⟨hs, by simp [hc]⟩, hid⟩
    · rintro ⟨a, ha, hid⟩
      obtain ⟨ha, hc⟩ := List.mem_filter.1 ha
      exact ⟨a, ha, hid, by simpa using hc⟩
  · intro hok
    rcases EndSession_cases m id notes now with ⟨-, hres⟩ | ⟨k, s, hk, hid, hc, hfirst, hres⟩
    · rw [hres] at hok
      exact Option.noConfusion hok
    · exact ⟨k, s, hk, hid, hc, hfirst, by rw [hres]⟩

/-- Witness of C16: ending session 1 of `demoStarted` succeeds and updates the
record at position 0. -/
theorem C16_end_session_success_iff_witness :
    (EndSession demoStarted 1 "finished chapter 3" 10).2 = none
      ∧ ∃ (k : Nat) (s : Session), demoStarted.sessions[k]? = some s ∧ s.ID = 1
          ∧ s.Completed = false
          ∧ (∀ (j : Nat) (a : Session), j < k → demoStarted.sessions[j]? = some a →
              ¬ (a.ID = 1 ∧ a.Completed = false))
          ∧ (EndSession demoStarted 1 "finished chapter 3" 10).1.sessions
              = demoStarted.sessions.set k (EndSession.update s "finished chapter 3" 10 s) :=
  ⟨by decide,
    (C16_end_session_success_iff demoStarted 1 "finished chapter 3" 10).2.2 (by decide)⟩

/-- C17: in a reachable ledger `StartSession` returns no error and a session
with the counter as id, the subject given, the clock reading as start time and
not completed; afterwards the sessions are the former ones with that session
appended, the counter is one larger, and `GetSessionByID` of the returned id
returns the returned session. -/
theorem C17_start_session (m : Manager) (t : Time) (hm : Reachable m t)
    (subject : Subject) (now : Time) :
    (StartSession m subject now).2.2 = none
      ∧ (StartSession m subject now).2.1.ID = m.nextID
      ∧ (StartSession m subject now).2.1.Subject = subject
      ∧ (StartSession m subject now).2.1.StartTime = now
      ∧ (StartSession m subject now).2.1.Completed = false
      ∧ (StartSession m subject now).1.sessions
          = m.sessions ++ [(StartSession m subject now).2.1]
      ∧ (StartSession m subject now).1.nextID = m.nextID + 1
      ∧ GetSessionByID (StartSession m subject now).1 (StartSession m subject now).2.1.ID
          = ((StartSession m subject now).2.1, none) := by
  refine ⟨rfl, rfl, rfl, rfl, rfl, rfl, rfl, ?_⟩
  have hnum := Numbered_StartSession m subject now hm.numbered
  have hmem : (StartSession m subject now).2.1 ∈ (StartSession m subject now).1.sessions := by
    simp [StartSession]
  exact GetSessionByID_of_mem hnum hmem

/-- Witness of C17: a second session, with an empty subject name, started on
`demoEnded` at time 12 gets id 2. -/
theorem C17_start_session_witness :
    Reachable demoEnded 10
      ∧ (StartSession demoEnded { Name := "", Description := "" } 12).2.2 = none
      ∧ (StartSession demoEnded { Name := "", Description := "" } 12).2.1.ID = 2 :=
  ⟨demoEnded_reachable,
    (C17_start_session demoEnded 10 demoEnded_reachable { Name := "", Description := "" } 12).1,
    (C17_start_session demoEnded 10 demoEnded_reachable { Name := "", Description := "" } 12).2.1⟩

/-- C19: after any sequence of `StartSession` and `EndSession` calls on a fresh
ledger the session at position `i` has id `i + 1` and the counter is the
number of sessions plus one; so the ids are positive, below the counter that
the next session gets, strictly increasing in the order of the ledger and
pairwise distinct. -/
theorem C19_ids_are_positions (calls : List Call) :
    (∀ (i : Nat) (s : Session), (exec NewManager calls).sessions[i]? = some s →
        s.ID = (i : Int) + 1)
      ∧ (exec NewManager calls).nextID = ((exec NewManager calls).sessions.length : Int) + 1
      ∧ (∀ s ∈ (exec NewManager calls).sessions, 0 < s.ID ∧ s.ID < (exec NewManager calls).nextID)
      ∧ ((exec NewManager calls).sessions.map (fun s => s.ID)).Pairwise (fun a b => a < b)
      ∧ ((exec NewManager calls).sessions.map (fun s => s.ID)).Nodup := by
  have hnum := Numbered_exec calls NewManager Numbered_NewManager
  have hsorted : ((exec NewManager calls).sessions.map (fun s => s.ID)).Pairwise
      (fun a b => a < b) := by
    rw [List.pairwise_iff_getElem]
    intro i j hi hj hij
    simp only [List.length_map] at hi hj
    simp only [List.getElem_map]
    have h1 := hnum.1 i _ (List.getElem?_eq_getElem hi)
    have h2 := hnum.1 j _ (List.getElem?_eq_getElem hj)
    omega
  refine ⟨hnum.1, hnum.2, ?_, hsorted, ?_⟩
  · intro s hs
    obtain ⟨i, hi⟩ := List.mem_iff_getElem?.1 hs
    have hid := hnum.1 i s hi
    have hlt : i < (exec NewManager calls).sessions.length := by
      by_contra hge
      rw [List.getElem?_eq_none (by omega)] at hi
      exact Option.noConfusion hi
    have hnext := hnum.2
    omega
  · exact hsorted.imp (fun h => ne_of_lt h)

/-! ## The duration formatting -/

theorem tdiv_of_nonpos (a b : Int) (ha : a ≤ 0) (hb : 0 ≤ b) :
    Int.tdiv a b = -((-a) / b) := by
  have h := Int.neg_tdiv (-a) b
  rw [neg_neg] at h
  rw [h, Int.tdiv_eq_ediv (by omega) hb]

theorem tmod_of_nonpos (a : Int) (ha : a ≤ 0) :
    Int.tmod a 1000000000 = -((-a) % 1000000000) := by
  rw [Int.tmod_def, tdiv_of_nonpos a 1000000000 ha (by decide)]
  omega

/-- Where the rounded value fits in int64, `Round` to the second gives the
nearest whole number of seconds, a half second rounding away from zero. -/
theorem Round_Second_in_range (d : Int) (h1 : -9223372036500000000 < d)
    (h2 : d < 9223372036500000000) :
    Duration.Round d Second = specSeconds d * 1000000000 := by
  by_cases hd : d < 0
  · have hmod := tmod_of_nonpos d (by omega)
    simp only [Duration.Round, Second, lessThanHalf, specSeconds, hmod, wrap64, minDuration,
      neg_neg, decide_eq_true_eq]
    delta Duration
    rw [if_neg (by decide), if_pos hd, if_pos hd]
    split_ifs <;> omega
  · have hmod : Int.tmod d 1000000000 = d % 1000000000 :=
      Int.tmod_eq_emod (by omega) (by decide)
    simp only [Duration.Round, Second, lessThanHalf, specSeconds, hmod, wrap64, maxDuration,
      decide_eq_true_eq]
    delta Duration
    rw [if_neg (by decide), if_neg hd, if_neg hd]
    split_ifs <;> omega

/-- The rounded number of seconds is the whole number nearest to the
duration. -/
theorem specSeconds_near (d : Int) :
    specSeconds d * 1000000000 - 500000000 ≤ d ∧ d ≤ specSeconds d * 1000000000 + 500000000
      ∧ (0 ≤ d → d < specSeconds d * 1000000000 + 500000000) := by
  simp only [specSeconds]
  delta Duration
  split_ifs <;> omega

/-- The values computed by `formatDuration` on a duration that is not negative
and whose rounded value fits in int64 are the hours, minutes and seconds of the
rounded number of seconds. -/
theorem parts_nonneg (d : Int) (hd : 0 ≤ d) (h2 : d < 9223372036500000000) :
    formatDuration.parts d
      = (specSeconds d / 3600, specSeconds d % 3600 / 60, specSeconds d % 60) := by
  have ht : 0 ≤ specSeconds d := by
    have := specSeconds_near d
    omega
  have hround := Round_Second_in_range d (by omega) h2
  generalize hT : specSeconds d = t at ht hround
  have e1 : Int.tdiv (t * 1000000000) 3600000000000 = t / 3600 := by
    rw [Int.tdiv_eq_ediv (by omega) (by decide)]
    omega
  have e2 : t * 1000000000 - t / 3600 * 3600000000000 = t % 3600 * 1000000000 := by
    omega
  have e3 : Int.tdiv (t % 3600 * 1000000000) 60000000000 = t % 3600 / 60 := by
    rw [Int.tdiv_eq_ediv (by omega) (by decide)]
    omega
  have e4 : t % 3600 * 1000000000 - t % 3600 / 60 * 60000000000 = t % 60 * 1000000000 := by
    omega
  have e5 : Int.tdiv (t % 60 * 1000000000) 1000000000 = t % 60 := by
    rw [Int.tdiv_eq_ediv (by omega) (by decide)]
    omega
  have hHour : Hour = 3600000000000 := by decide
  have hMinute : Minute = 60000000000 := by decide
  have hSecond : Second = 1000000000 := by decide
  simp only [formatDuration.parts, hround, hHour, hMinute, e1, e2, e3, e4]
  rw [hSecond, e5]

/-- The values computed by `formatDuration` on a negative duration that rounds
to more than minus one minute: no hours, no minutes, the rounded seconds. -/
theorem parts_small_neg (d : Int) (h1 : -59500000000 < d) (hd : d < 0) :
    formatDuration.parts d = (0, 0, specSeconds d)
      ∧ -60 < specSeconds d ∧ specSeconds d ≤ 0 := by
  have hnear := specSeconds_near d
  have hlo : -60 < specSeconds d := by omega
  have hhi : specSeconds d ≤ 0 := by omega
  have hround := Round_Second_in_range d (by omega) (by omega)
  generalize hT : specSeconds d = t at hlo hhi hround
  have e1 : Int.tdiv (t * 1000000000) 3600000000000 = 0 := by
    rw [tdiv_of_nonpos _ _ (by omega) (by decide)]
    omega
  have e3 : Int.tdiv (t * 1000000000) 60000000000 = 0 := by
    rw [tdiv_of_nonpos _ _ (by omega) (by decide)]
    omega
  have e5 : Int.tdiv (t * 1000000000) 1000000000 = t := by
    rw [tdiv_of_nonpos _ _ (by omega) (by decide)]
    omega
  have hHour : Hour = 3600000000000 := by decide
  have hMinute : Minute = 60000000000 := by decide
  have hSecond : Second = 1000000000 := by decide
  refine ⟨?_, hlo, hhi⟩
  simp only [formatDuration.parts, hround, hHour, hMinute, e1, e3, zero_mul, sub_zero]
  rw [hSecond, e5]

/-- C15, as stated, fails in two places.  For the duration of minus 1 hour 1
minute 1 second the rounded value has the hours component -1, the
specification renders "-1h -1m -1s", and `formatDuration` prints the seconds
alone.  For the largest duration `Round` saturates at a value that is not a
whole number of seconds, and `formatDuration` prints 16 seconds where the
duration rounds to 17. -/
theorem C15_format_every_duration_counterexample :
    formatDuration.parts (-3661000000000) = (-1, -1, -1)
      ∧ formatDuration (-3661000000000) = "-1s"
      ∧ specFormat (-3661000000000) = "-1h -1m -1s"
      ∧ formatDuration (-3661000000000) ≠ specFormat (-3661000000000)
      ∧ formatDuration 9223372036854775807 = "2562047h 47m 16s"
      ∧ specFormat 9223372036854775807 = "2562047h 47m 17s" := by
  decide

/-- C15, amended: for every duration above minus 59.5 seconds and below
9223372036.5 seconds, where the rounded value fits in int64, `formatDuration`
renders the duration rounded to the nearest second as the specification says:
hours, minutes and seconds when the hours are not zero, else minutes and seconds
when the minutes are not zero, else the seconds alone; zero renders as "0s". -/
theorem C15_format_duration_in_range (d : Int) (h1 : -59500000000 < d)
    (h2 : d < 9223372036500000000) :
    formatDuration d = specFormat d
      ∧ Duration.Round d Second = specSeconds d * 1000000000
      ∧ specSeconds d * 1000000000 - 500000000 ≤ d
      ∧ d ≤ specSeconds d * 1000000000 + 500000000
      ∧ formatDuration 0 = "0s" := by
  have hnear := specSeconds_near d
  refine ⟨?_, Round_Second_in_range d (by omega) h2, hnear.1, hnear.2.1, by decide⟩
  by_cases hd : d < 0
  · obtain ⟨hparts, hlo, hhi⟩ := parts_small_neg d h1 hd
    have e1 : Int.tdiv (specSeconds d) 3600 = 0 := by
      rw [tdiv_of_nonpos _ _ hhi (by decide)]
      omega
    have e2 : Int.tmod (specSeconds d) 3600 = specSeconds d := by
      rw [Int.tmod_def, e1]
      omega
    have e3 : Int.tdiv (specSeconds d) 60 = 0 := by
      rw [tdiv_of_nonpos _ _ hhi (by decide)]
      omega
    have e4 : Int.tmod (specSeconds d) 60 = specSeconds d := by
      rw [Int.tmod_def, e3]
      omega
    simp [formatDuration, specFormat, hparts, e1, e2, e3, e4]
  · have hd' : 0 ≤ d := by omega
    have ht : 0 ≤ specSeconds d := by omega
    have hparts := parts_nonneg d hd' h2
    have hh : 0 ≤ specSeconds d / 3600 := by omega
    have hm : 0 ≤ specSeconds d % 3600 / 60 := by omega
    have e1 : Int.tdiv (specSeconds d) 3600 = specSeconds d / 3600 :=
      Int.tdiv_eq_ediv ht (by decide)
    have e2 : Int.tmod (specSeconds d) 3600 = specSeconds d % 3600 :=
      Int.tmod_eq_emod ht (by decide)
    have e3 : Int.tdiv (specSeconds d % 3600) 60 = specSeconds d % 3600 / 60 :=
      Int.tdiv_eq_ediv (by omega) (by decide)
    have e4 : Int.tmod (specSeconds d) 60 = specSeconds d % 60 :=
      Int.tmod_eq_emod ht (by decide)
    have hpos : ∀ x : Int, 0 ≤ x → (x > 0 ↔ x ≠ 0) := by
      intro x hx
      omega
    simp only [formatDuration, specFormat, hparts, e1, e2, e3, e4, hpos _ hh, hpos _ hm]

/-- Witness of C15, amended: 1 hour 1 minute 1.4 seconds. -/
theorem C15_format_duration_in_range_witness :
    (-59500000000 : Int) < 3661400000000 ∧ (3661400000000 : Int) < 9223372036500000000
      ∧ formatDuration 3661400000000 = specFormat 3661400000000 :=
  ⟨by decide, by decide,
    (C15_format_duration_in_range 3661400000000 (by decide) (by decide)).1⟩

/-- C18, as stated, fails: the largest duration rounds to 9223372037 seconds,
but `Round` saturates and the values of `formatDuration` are 2562047 hours,
47 minutes and 16 seconds, which are one second less. -/
theorem C18_components_carry_counterexample :
    (0 : Int) ≤ 9223372036854775807
      ∧ specSeconds 9223372036854775807 = 9223372037
      ∧ Duration.Round 9223372036854775807 Second = 9223372036854775807
      ∧ formatDuration.parts 9223372036854775807 = (2562047, 47, 16)
      ∧ (formatDuration.parts 9223372036854775807).1 * 3600
          + (formatDuration.parts 9223372036854775807).2.1 * 60
          + (formatDuration.parts 9223372036854775807).2.2 ≠ specSeconds 9223372036854775807 := by
  decide

/-- C18, amended: for a duration `d` that is not negative and below
9223372036.5 seconds, where the rounded value fits in int64, with `t` the whole
number of seconds nearest to `d`, a half second rounding up, the values `h`,
`m`, `s` of `formatDuration` satisfy `h * 3600 + m * 60 + s = t` with `m` and
`s` from 0 to 59; so 59.5 seconds render as "1m 0s" and 59 minutes 59.5
seconds as "1h 0m 0s". -/
theorem C18_components_carry_in_range (d : Int) (hd : 0 ≤ d)
    (h2 : d < 9223372036500000000) :
    (specSeconds d * 1000000000 - 500000000 ≤ d ∧ d < specSeconds d * 1000000000 + 500000000)
      ∧ Duration.Round d Second = specSeconds d * 1000000000
      ∧ (formatDuration.parts d).1 * 3600 + (formatDuration.parts d).2.1 * 60
          + (formatDuration.parts d).2.2 = specSeconds d
      ∧ 0 ≤ (formatDuration.parts d).1
      ∧ 0 ≤ (formatDuration.parts d).2.1 ∧ (formatDuration.parts d).2.1 < 60
      ∧ 0 ≤ (formatDuration.parts d).2.2 ∧ (formatDuration.parts d).2.2 < 60
      ∧ formatDuration 59500000000 = "1m 0s"
      ∧ formatDuration 3599500000000 = "1h 0m 0s" := by
  have hnear := specSeconds_near d
  have ht : 0 ≤ specSeconds d := by omega
  rw [parts_nonneg d hd h2]
  refine ⟨⟨hnear.1, hnear.2.2 hd⟩, Round_Second_in_range d (by omega) h2,
    ?_, ?_, ?_, ?_, ?_, ?_, by decide, by decide⟩
  all_goals simp only
  all_goals omega

/-- Witness of C18, amended: 59.5 seconds round to 60 seconds, which are
0 hours, 1 minute and 0 seconds. -/
theorem C18_components_carry_in_range_witness :
    (0 : Int) ≤ 59500000000 ∧ (59500000000 : Int) < 9223372036500000000
      ∧ formatDuration.parts 59500000000 = (0, 1, 0)
      ∧ (formatDuration.parts 59500000000).1 * 3600 + (formatDuration.parts 59500000000).2.1 * 60
          + (formatDuration.parts 59500000000).2.2 = specSeconds 59500000000 :=
  ⟨by decide, by decide, by decide,
    (C18_components_carry_in_range 59500000000 (by decide) (by decide)).2.2.1⟩

/-! ## The statistics view -/

theorem GetAllSessions_eq (m : Manager) : GetAllSessions m = m.sessions := by
  have h : ∀ l : List Session,
      (List.replicate l.length Session.zero).zipWith (fun _ s => s) l = l := by
    intro l
    induction l with
    | nil => rfl
    | cons a l ih => simp [List.replicate_succ, ih]
  exact h m.sessions

theorem subjectNames_fold (l : List Session) :
    ∀ (init : List String), init.Nodup →
      (l.foldl (fun keys s => if s.Subject.Name ∈ keys then keys else keys ++ [s.Subject.Name])
          init).Nodup
        ∧ ∀ n, n ∈ l.foldl
            (fun keys s => if s.Subject.Name ∈ keys then keys else keys ++ [s.Subject.Name]) init
          ↔ n ∈ init ∨ ∃ s ∈ l, s.Subject.Name = n := by
  induction l with
  | nil =>
    intro init hinit
    simp [hinit]
  | cons a l ih =>
    intro init hinit
    simp only [List.foldl_cons]
    by_cases ha : a.Subject.Name ∈ init
    · rw [if_pos ha]
      obtain ⟨h1, h2⟩ := ih init hinit
      refine ⟨h1, ?_⟩
      intro n
      rw [h2 n]
      constructor
      · rintro (h | ⟨s, hs, hn⟩)
        · exact Or.inl h
        · exact Or.inr ⟨s, List.mem_cons_of_mem a hs, hn⟩
      · rintro (h | ⟨s, hs, hn⟩)
        · exact Or.inl h
        · rcases List.mem_cons.1 hs with rfl | hs
          · left
            rw [← hn]
            exact ha
          · exact Or.inr ⟨s, hs, hn⟩
    · rw [if_neg ha]
      have hnodup : (init ++ [a.Subject.Name]).Nodup := by
        rw [List.nodup_append]
        refine ⟨hinit, List.nodup_singleton _, ?_⟩
        intro x hx hx'
        rw [List.mem_singleton] at hx'
        subst hx'
        exact ha hx
      obtain ⟨h1, h2⟩ := ih (init ++ [a.Subject.Name]) hnodup
      refine ⟨h1, ?_⟩
      intro n
      rw [h2 n]
      simp only [List.mem_append, List.mem_cons, List.not_mem_nil, or_false]
      constructor
      · rintro ((h | h) | ⟨s, hs, hn⟩)
        · exact Or.inl h
        · exact Or.inr ⟨a, Or.inl rfl, h.symm⟩
        · exact Or.inr ⟨s, Or.inr hs, hn⟩
      · rintro (h | ⟨s, hs | hs, hn⟩)
        · exact Or.inl (Or.inl h)
        · subst hs
          exact Or.inl (Or.inr hn.symm)
        · exact Or.inr ⟨s, hs, hn⟩

/-- Over a list of distinct names that has `x`, the name `x` is counted once. -/
theorem sum_single_name (x : String) (c : Int) :
    ∀ (names : List String), names.Nodup → x ∈ names →
      (names.map (fun n => if x = n then c else 0)).sum = c := by
  intro names
  induction names with
  | nil =>
    intro _ hx
    simp at hx
  | cons n names ih =>
    intro hnodup hx
    obtain ⟨hn, hnodup⟩ := List.nodup_cons.1 hnodup
    by_cases hxn : x = n
    · subst hxn
      have hzero : (names.map (fun n => if x = n then c else 0)).sum = 0 := by
        apply List.sum_eq_zero
        intro y hy
        obtain ⟨n, hn', rfl⟩ := List.mem_map.1 hy
        have : x ≠ n := fun h => hn (h ▸ hn')
        simp [this]
      simp [hzero]
    · rcases List.mem_cons.1 hx with h | h
      · exact absurd h hxn
      · simp [hxn, ih hnodup h]

/-- The times of the distinct subject names add up to the sum over the
completed sessions. -/
theorem sum_subjects (l : List Session) :
    ∀ (names : List String), names.Nodup → (∀ s ∈ l, s.Subject.Name ∈ names) →
      (names.map (fun n =>
          ((l.filter (fun s => s.Completed && decide (s.Subject.Name = n))).map
            (fun s => s.Duration)).sum)).sum
        = ((l.filter (fun s => s.Completed)).map (fun s => s.Duration)).sum := by
  induction l with
  | nil =>
    intro names _ _
    simp
  | cons a l ih =>
    intro names hnodup hall
    have hl := ih names hnodup (fun s hs => hall s (List.mem_cons_of_mem a hs))
    by_cases hc : a.Completed = true
    · have hsplit : ∀ n : String,
          (((a :: l).filter (fun s => s.Completed && decide (s.Subject.Name = n))).map
              (fun s => s.Duration)).sum
            = (if a.Subject.Name = n then a.Duration else 0)
              + ((l.filter (fun s => s.Completed && decide (s.Subject.Name = n))).map
                  (fun s => s.Duration)).sum := by
        intro n
        by_cases hn : a.Subject.Name = n
        · simp [List.filter_cons, hc, hn]
        · simp [List.filter_cons, hc, hn]
      simp only [hsplit, List.sum_map_add, hl]
      rw [sum_single_name a.Subject.Name a.Duration names hnodup
        (hall a (List.mem_cons_self a l))]
      simp [List.filter_cons, hc]
    · simp only [List.filter_cons, hc, Bool.false_and, Bool.false_eq_true, if_false]
      exact hl

theorem subject_le_total (name : String) :
    ∀ (l : List Session), (∀ s ∈ l, s.Completed = true → 0 ≤ s.Duration) →
      ((l.filter (fun s => s.Completed && decide (s.Subject.Name = name))).map
          (fun s => s.Duration)).sum
        ≤ ((l.filter (fun s => s.Completed)).map (fun s => s.Duration)).sum := by
  intro l
  induction l with
  | nil =>
    intro _
    simp
  | cons a l ih =>
    intro h
    have hl := ih (fun s hs => h s (List.mem_cons_of_mem a hs))
    by_cases hc : a.Completed = true
    · have hpos : (0 : Int) ≤ a.Duration := h a (List.mem_cons_self a l) hc
      by_cases hn : a.Subject.Name = name
      · simp only [List.filter_cons, hc, hn, decide_True, Bool.and_self, if_true,
          List.map_cons, List.sum_cons]
        exact add_le_add_left hl _
      · simp only [List.filter_cons, hc, hn, decide_False, Bool.and_false, Bool.false_eq_true,
          if_false, if_true, List.map_cons, List.sum_cons]
        exact le_trans hl (le_add_of_nonneg_left hpos)
    · simp only [List.filter_cons, hc, Bool.false_and, Bool.false_eq_true, if_false]
      exact hl

theorem sum_subject_nonneg (name : String) :
    ∀ (l : List Session), (∀ s ∈ l, s.Completed = true → 0 ≤ s.Duration) →
      0 ≤ ((l.filter (fun s => s.Completed && decide (s.Subject.Name = name))).map
          (fun s => s.Duration)).sum := by
  intro l
  induction l with
  | nil =>
    intro _
    simp
  | cons a l ih =>
    intro h
    have hl := ih (fun s hs => h s (List.mem_cons_of_mem a hs))
    by_cases hc : (a.Completed && decide (a.Subject.Name = name)) = true
    · have hac : a.Completed = true := by
        simp only [Bool.and_eq_true] at hc
        exact hc.1
      have ha : (0 : Int) ≤ a.Duration := h a (List.mem_cons_self a l) hac
      simp only [List.filter_cons, hc, if_true, List.map_cons, List.sum_cons]
      exact add_nonneg ha hl
    · simp only [List.filter_cons, hc, Bool.false_eq_true, if_false]
      exact hl

/-- C20, as stated, fails: one session for "Physics" and 29 for "Math" are
started together and ended ten years later; no duration is negative, the time
of "Physics" is ten years and the time of "Math" 290 years, but the int64 total
has wrapped around to a negative value: it is below the time of "Physics" and
is not the sum of the two subject times. -/
theorem C20_subject_times_partition_total_counterexample :
    (∀ s ∈ (exec NewManager (longRun demoPhysics 30 30)).sessions,
        s.Completed = true → 0 ≤ s.Duration)
      ∧ subjectNames (exec NewManager (longRun demoPhysics 30 30)) = ["Physics", "Math"]
      ∧ GetSubjectStudyTime (exec NewManager (longRun demoPhysics 30 30)) "Physics"
          = 315360000000000000
      ∧ GetTotalStudyTime (exec NewManager (longRun demoPhysics 30 30)) = -8985944073709551616
      ∧ ((subjectNames (exec NewManager (longRun demoPhysics 30 30))).map
          (GetSubjectStudyTime (exec NewManager (longRun demoPhysics 30 30)))).sum
          = 9460800000000000000 := by
  decide!

/-- C20, amended: in every ledger the keys that the statistics view ranges
over are the subject names of `GetAllSessions`, each once, and the sum of
`GetSubjectStudyTime` over them agrees with `GetTotalStudyTime` up to a
multiple of 2^64; when no completed duration is negative and the exact sum of
the completed durations fits in int64, the sum of `GetSubjectStudyTime` over
the keys, in whatever order, is `GetTotalStudyTime`, and `GetSubjectStudyTime`
of any one name is at most `GetTotalStudyTime`. -/
theorem C20_subject_times_partition_total_int64 (m : Manager) (name : String)
    (keys : List String) :
    (subjectNames m).Nodup
      ∧ (∀ n, n ∈ subjectNames m ↔ ∃ s ∈ GetAllSessions m, s.Subject.Name = n)
      ∧ wrap64 ((subjectNames m).map (GetSubjectStudyTime m)).sum = GetTotalStudyTime m
      ∧ ((∀ s ∈ m.sessions, s.Completed = true → 0 ≤ s.Duration) →
          ((m.sessions.filter (fun s => s.Completed)).map (fun s => s.Duration)).sum
            ≤ 9223372036854775807 →
          ((subjectNames m).map (GetSubjectStudyTime m)).sum = GetTotalStudyTime m
            ∧ (keys.Perm (subjectNames m) →
                (keys.map (GetSubjectStudyTime m)).sum = GetTotalStudyTime m)
            ∧ GetSubjectStudyTime m name ≤ GetTotalStudyTime m) := by
  obtain ⟨hnodup, hmem⟩ := subjectNames_fold (GetAllSessions m) [] List.nodup_nil
  have hmem' : ∀ n, n ∈ subjectNames m ↔ ∃ s ∈ GetAllSessions m, s.Subject.Name = n := by
    intro n
    have := hmem n
    simpa [subjectNames] using this
  have hall : ∀ s ∈ m.sessions, s.Subject.Name ∈ subjectNames m := by
    intro s hs
    rw [hmem']
    exact ⟨s, by rw [GetAllSessions_eq]; exact hs, rfl⟩
  have hexact := sum_subjects m.sessions (subjectNames m) hnodup hall
  have hfun : GetSubjectStudyTime m = fun n => wrap64
      ((m.sessions.filter (fun s => s.Completed && decide (s.Subject.Name = n))).map
        (fun s => s.Duration)).sum := by
    funext n
    exact GetSubjectStudyTime_eq m n
  refine ⟨hnodup, hmem', ?_, ?_⟩
  · rw [hfun, GetTotalStudyTime_eq,
      wrap64_sum_map (fun n =>
        ((m.sessions.filter (fun s => s.Completed && decide (s.Subject.Name = n))).map
          (fun s => s.Duration)).sum) (subjectNames m), hexact]
  · intro hpos hfit
    have htotal_nonneg := sum_completed_nonneg m.sessions hpos
    have hsub : ∀ n, GetSubjectStudyTime m n
        = ((m.sessions.filter (fun s => s.Completed && decide (s.Subject.Name = n))).map
            (fun s => s.Duration)).sum := by
      intro n
      have h0 := sum_subject_nonneg n m.sessions hpos
      have h1 := subject_le_total n m.sessions hpos
      rw [GetSubjectStudyTime_eq]
      exact wrap64_of_range _ (le_trans (by decide) h0) (le_trans h1 hfit)
    have htotal : GetTotalStudyTime m
        = ((m.sessions.filter (fun s => s.Completed)).map (fun s => s.Duration)).sum := by
      rw [GetTotalStudyTime_eq]
      exact wrap64_of_range _ (le_trans (by decide) htotal_nonneg) hfit
    have hsum : ((subjectNames m).map (GetSubjectStudyTime m)).sum = GetTotalStudyTime m := by
      rw [htotal, ← hexact]
      congr 1
      apply List.map_congr_left
      intro n _
      exact hsub n
    refine ⟨hsum, ?_, ?_⟩
    · intro hperm
      rw [← hsum]
      exact (hperm.map _).sum_eq
    · rw [hsub name, htotal]
      exact subject_le_total name m.sessions hpos

/-- Witness of C20, amended: in `demoEnded` the time of "Math" is the total. -/
theorem C20_subject_times_partition_total_int64_witness :
    (∀ s ∈ demoEnded.sessions, s.Completed = true → 0 ≤ s.Duration)
      ∧ ((demoEnded.sessions.filter (fun s => s.Completed)).map (fun s => s.Duration)).sum
          ≤ 9223372036854775807
      ∧ ((subjectNames demoEnded).map (GetSubjectStudyTime demoEnded)).sum
          = GetTotalStudyTime demoEnded
      ∧ GetSubjectStudyTime demoEnded "Math" ≤ GetTotalStudyTime demoEnded :=
  ⟨by decide, by decide,
    ((C20_subject_times_partition_total_int64 demoEnded "Math" []).2.2.2
      (by decide) (by decide)).1,
    ((C20_subject_times_partition_total_int64 demoEnded "Math" []).2.2.2
      (by decide) (by decide)).2.2⟩

/-! ## The copy returned by `GetAllSessions` -/

theorem Heap.length_store (h : Heap) (sl : Slice) (i : Nat) (v : Session) :
    (h.store sl i v).length = h.length := by
  unfold Heap.store
  split
  · simp
  · rfl

/-- A write through one slice is not seen through a slice on another array. -/
theorem Heap.read_store_other (h : Heap) (sl other : Slice) (i : Nat) (v : Session)
    (hne : sl.addr ≠ other.addr) : (h.store sl i v).read other = h.read other := by
  unfold Heap.store
  split
  · simp [Heap.read, List.getElem?_set, hne]
  · rfl

theorem overwrite_length (sl : Slice) (writes : List (Nat × Session)) :
    ∀ (h : Heap), (overwrite h sl writes).length = h.length := by
  induction writes with
  | nil =>
    intro h
    rfl
  | cons w writes ih =>
    intro h
    simp only [overwrite, List.foldl_cons] at ih ⊢
    rw [ih, Heap.length_store]

theorem overwrite_read_other (sl other : Slice) (hne : sl.addr ≠ other.addr)
    (writes : List (Nat × Session)) :
    ∀ (h : Heap), (overwrite h sl writes).read other = h.read other := by
  induction writes with
  | nil =>
    intro h
    rfl
  | cons w writes ih =>
    intro h
    simp only [overwrite, List.foldl_cons] at ih ⊢
    rw [ih, Heap.read_store_other h sl other w.1 w.2 hne]

/-- The slice that `GetAllSessionsMem` returns is on a new array, shows the
sessions of the manager, and the manager's own slice shows what it did. -/
theorem GetAllSessionsMem_spec (h : Heap) (m : ManagerMem) (hm : m.sessions.addr < h.length) :
    (GetAllSessionsMem h m).2.addr = h.length
      ∧ (GetAllSessionsMem h m).1.length = h.length + 1
      ∧ (GetAllSessionsMem h m).1.read (GetAllSessionsMem h m).2 = h.read m.sessions
      ∧ (GetAllSessionsMem h m).1.read m.sessions = h.read m.sessions := by
  have hne : h.length ≠ m.sessions.addr := by omega
  have hold : (h ++ [List.replicate m.sessions.len Session.zero])[m.sessions.addr]?
      = h[m.sessions.addr]? := List.getElem?_append_left hm
  refine ⟨rfl, ?_, ?_, ?_⟩
  · simp [GetAllSessionsMem, Heap.make, Heap.copy]
  · simp only [GetAllSessionsMem, Heap.make, Heap.copy, Heap.read, hold, min_self]
    rw [List.getElem?_set_self (by simp)]
    simp [List.take_take]
  · simp only [GetAllSessionsMem, Heap.make, Heap.copy, Heap.read]
    rw [List.getElem?_set_ne hne, hold]

/-- The memory model tells a copy from an alias: a write through the
manager's own slice is seen by the ledger. -/
theorem write_through_own_slice_is_seen :
    demoMem.load (overwrite demoHeap demoMem.sessions [(0, Session.zero)])
      ≠ demoMem.load demoHeap := by
  decide

/-- C11: `GetAllSessions` returns the sessions of the ledger, element by
element in their order, in a slice on a new array: whatever the caller writes
to the elements of the returned slice, the manager is as before, and so are
the results of all its queries, a further `GetAllSessions` included. -/
theorem C11_get_all_sessions_copy (h : Heap) (m : ManagerMem)
    (hm : m.sessions.addr < h.length) (writes : List (Nat × Session))
    (id : Int) (name : String) :
    (GetAllSessionsMem h m).1.read (GetAllSessionsMem h m).2 = (m.load h).sessions
      ∧ (GetAllSessionsMem h m).1.read (GetAllSessionsMem h m).2 = GetAllSessions (m.load h)
      ∧ m.load (GetAllSessionsMem h m).1 = m.load h
      ∧ m.load (overwrite (GetAllSessionsMem h m).1 (GetAllSessionsMem h m).2 writes)
          = m.load h
      ∧ (GetAllSessionsMem
            (overwrite (GetAllSessionsMem h m).1 (GetAllSessionsMem h m).2 writes) m).1.read
          (GetAllSessionsMem
            (overwrite (GetAllSessionsMem h m).1 (GetAllSessionsMem h m).2 writes) m).2
          = (m.load h).sessions
      ∧ GetAllSessions
          (m.load (overwrite (GetAllSessionsMem h m).1 (GetAllSessionsMem h m).2 writes))
          = GetAllSessions (m.load h)
      ∧ GetActiveSessions
          (m.load (overwrite (GetAllSessionsMem h m).1 (GetAllSessionsMem h m).2 writes))
          = GetActiveSessions (m.load h)
      ∧ GetCompletedSessions
          (m.load (overwrite (GetAllSessionsMem h m).1 (GetAllSessionsMem h m).2 writes))
          = GetCompletedSessions (m.load h)
      ∧ GetSessionByID
          (m.load (overwrite (GetAllSessionsMem h m).1 (GetAllSessionsMem h m).2 writes)) id
          = GetSessionByID (m.load h) id
      ∧ GetTotalStudyTime
          (m.load (overwrite (GetAllSessionsMem h m).1 (GetAllSessionsMem h m).2 writes))
          = GetTotalStudyTime (m.load h)
      ∧ GetSubjectStudyTime
          (m.load (overwrite (GetAllSessionsMem h m).1 (GetAllSessionsMem h m).2 writes)) name
          = GetSubjectStudyTime (m.load h) name := by
  obtain ⟨haddr, hlen, hcopy, hown⟩ := GetAllSessionsMem_spec h m hm
  have hne : (GetAllSessionsMem h m).2.addr ≠ m.sessions.addr := by
    rw [haddr]
    omega
  have hload : m.load (GetAllSessionsMem h m).1 = m.load h := by
    simp only [ManagerMem.load, hown]
  have hafter : m.load (overwrite (GetAllSessionsMem h m).1 (GetAllSessionsMem h m).2 writes)
      = m.load h := by
    simp only [ManagerMem.load, overwrite_read_other _ _ hne writes, hown]
  have hvalid : m.sessions.addr
      < (overwrite (GetAllSessionsMem h m).1 (GetAllSessionsMem h m).2 writes).length := by
    rw [overwrite_length, hlen]
    omega
  have hagain := (GetAllSessionsMem_spec _ m hvalid).2.2.1
  refine ⟨hcopy, ?_, hload, hafter, ?_, ?_, ?_, ?_, ?_, ?_, ?_⟩
  · rw [hcopy, GetAllSessions_eq]
    rfl
  · rw [hagain]
    exact congrArg Manager.sessions hafter
  all_goals rw [hafter]

/-- Witness of C11: the caller overwrites element 0 of the copy of
`demoEnded` with the zero session; the total of the ledger is still 7. -/
theorem C11_get_all_sessions_copy_witness :
    demoMem.sessions.addr < demoHeap.length
      ∧ (overwrite (GetAllSessionsMem demoHeap demoMem).1 (GetAllSessionsMem demoHeap demoMem).2
          [(0, Session.zero)]).read (GetAllSessionsMem demoHeap demoMem).2 = [Session.zero]
      ∧ demoMem.load (overwrite (GetAllSessionsMem demoHeap demoMem).1
          (GetAllSessionsMem demoHeap demoMem).2 [(0, Session.zero)]) = demoMem.load demoHeap
      ∧ GetTotalStudyTime (demoMem.load (overwrite (GetAllSessionsMem demoHeap demoMem).1
          (GetAllSessionsMem demoHeap demoMem).2 [(0, Session.zero)])) = 7 :=
  ⟨by decide, by decide,
    (C11_get_all_sessions_copy demoHeap demoMem (by decide) [(0, Session.zero)] 1 "Math").2.2.2.1,
    by decide⟩

end session
